import Mathlib

/-! Wish: a shallow embedding of `src/wish.c`.

C strings are modelled as lists of characters (`Str`); a pointer into a string is the
suffix it points at.  Heap allocation is assumed to succeed, so the `malloc`/`strdup`
failure branches are not part of the model.  The operating system is an abstract world
`W` with the primitives the interpreter calls (`access`, `chdir`, `fork`, `waitpid`);
every effect the interpreter performs is recorded in a trace of `Event`s.
-/

namespace Wish

/-- A NUL-terminated C string, as the list of its characters. -/
abbrev Str := List Char

/-- The constant `MAX_TOKENS` of `wish.c`. -/
def MAX_TOKENS : Nat := 512

/-! ## String helpers -/

/-- The characters skipped by `trim`: space, tab, newline, carriage return. -/
def is_trim_space (c : Char) : Bool :=
  c == ' ' || c == '\t' || c == '\n' || c == '\r'

/-- The characters skipped by `tokenize_whitespace`: space, tab, newline. -/
def is_token_sep (c : Char) : Bool :=
  c == ' ' || c == '\t' || c == '\n'

/-- The function `trim`: skip leading blanks; if anything is left, overwrite trailing blanks with NUL,
walking back from the last character while `end > s`. -/
def trim (s : Str) : Str :=
  match s.dropWhile is_trim_space with
  | [] => []
  | c :: rest => c :: rest.rdropWhile is_trim_space

/-- The `while (*p)` loop of `tokenize_whitespace`; `fuel` bounds the number of
iterations, `p` is the cursor and `argv` the tokens stored so far. -/
def tokenize_loop : Nat → Str → List Str → List Str
  | 0, _, argv => argv
  | fuel + 1, p, argv =>
    match p.dropWhile is_token_sep with
    | [] => argv
    | c :: cs =>
      let tok := (c :: cs).takeWhile (fun x => !is_token_sep x)
      let p2 := (c :: cs).dropWhile (fun x => !is_token_sep x)
      let argv2 := argv ++ [tok]
      if MAX_TOKENS ≤ argv2.length then argv2 else tokenize_loop fuel p2 argv2

/-- The function `tokenize_whitespace`: the argument vector of `cmd` (its length is `*out_argc`). -/
def tokenize_whitespace (cmd : Str) : List Str :=
  tokenize_loop cmd.length cmd []

/-- The text before the first occurrence of `ch` (all of `s` when there is none). -/
def before_char (ch : Char) (s : Str) : Str :=
  s.takeWhile (fun x => x != ch)

/-- The call `strchr(s, ch)`: the suffix of `s` starting at the first `ch`, or `none` (NULL). -/
def strchr (s : Str) (ch : Char) : Option Str :=
  match s.dropWhile (fun x => x != ch) with
  | [] => none
  | r => some r

/-! ## Parsing stage of `handle_single_command` (lines 148-194) -/

/-- Outcome of the parsing stage: a failure (`reported` tells whether `error()` was
called before `return -1`), or an argument vector with an optional output file. -/
inductive Parsed where
  | fail (reported : Bool)
  | ok (argv : List Str) (outfile : Option Str)
  deriving DecidableEq, Repr

/-- Lines 189-194: tokenize the left part; an empty vector is a silent failure. -/
def parse_left (left : Str) (outfile : Option Str) : Parsed :=
  let argv := tokenize_whitespace (trim left)
  if argv.length = 0 then Parsed.fail false else Parsed.ok argv outfile

/-- Lines 148-194 of `handle_single_command`. -/
def parse_stage (command0 : Str) : Parsed :=
  let command := trim command0
  if command.length = 0 then Parsed.fail false
  else if (command.dropWhile (fun x => x == ' ')).head? = some '>' then Parsed.fail true
  else
    match strchr command '>' with
    | none => parse_left command none
    | some redir =>
      if redir = command then Parsed.fail true
      else if (strchr redir.tail '>').isSome then Parsed.fail true
      else
        let right := trim redir.tail
        if right.length = 0 then Parsed.fail true
        else
          let right_argv := tokenize_whitespace right
          if right_argv.length ≠ 1 then Parsed.fail true
          else parse_left (before_char '>' command) (right_argv.head?)

/-! ## Effects and the operating system -/

/-- What the interpreter does to the outside world, in program order. -/
inductive Event where
  /-- The call `error()`: the fixed message is written to the error stream. -/
  | error
  /-- The call `fork()` returned `pid > 0` in the parent: a child exists that will redirect its
  output to `outfile` (when present) and `execv(fullpath, argv)`. -/
  | launch (pid : Int) (fullpath : Str) (argv : List Str) (outfile : Option Str)
  /-- The call `fork()` returned `0`: this process is the child and runs lines 127-139. -/
  | exec (fullpath : Str) (argv : List Str) (outfile : Option Str)
  /-- The call `chdir(dir)` was made; `ok` tells whether it returned `0`. -/
  | chdir (dir : Str) (ok : Bool)
  /-- The call `waitpid(pid, &status, 0)`. -/
  | wait (pid : Int)
  /-- The prompt `wish> ` was printed and flushed. -/
  | prompt
  /-- The call to `getline`. -/
  | read_line
  deriving DecidableEq, Repr

/-- The system calls of `wish.c` over an abstract world `W`. -/
structure Sys (W : Type) where
  /-- Whether `access(path, X_OK) == 0`. -/
  access : W → Str → Bool
  /-- The call `chdir(dir)`: the new world on success, `none` on failure (world unchanged). -/
  chdir : W → Str → Option W
  /-- The call `fork()`: the value returned in the process under observation, and the new world. -/
  fork : W → Int × W
  /-- The call `waitpid(pid, &status, 0)`: the world after the child was reaped. -/
  waitpid : W → Int → W

/-- How control leaves a piece of the interpreter. -/
inductive Ret where
  /-- The function `handle_single_command` returned `rc` with `*out_pid = out_pid`. -/
  | returned (rc : Int) (out_pid : Int)
  /-- The call `exit(status)` was made. -/
  | exited (status : Int)
  /-- This process is a forked child: it executes the program and never returns. -/
  | child
  deriving DecidableEq, Repr

/-- Result of handling one segment: control, the globals `paths`/`num_paths`, the world,
and the events performed. -/
structure Step (W : Type) where
  ret : Ret
  paths : List Str
  world : W
  events : List Event

/-! ## Search path -/

/-- The function `init_default_path`: the Search Path at start is `/bin`. -/
def init_default_path : List Str := ["/bin".toList]

/-- The function `set_path(newpaths, n)`: the old list is freed and the first `n` strings are copied. -/
def set_path (newpaths : List Str) (n : Nat) : List Str :=
  if n = 0 then [] else newpaths.take n

/-- The `for` loop of `resolve_executable` over the remaining directories. -/
def resolve_loop (access : Str → Bool) (cmd : Str) : List Str → Option Str
  | [] => none
  | d :: ds =>
    let full := d ++ '/' :: cmd
    if access full then some full else resolve_loop access cmd ds

/-- The function `resolve_executable(cmd)` with the globals `paths`, `num_paths` made explicit. -/
def resolve_executable (access : Str → Bool) (paths : List Str) (cmd : Str) : Option Str :=
  if paths.length = 0 then none else resolve_loop access cmd paths

/-- The function `launch_command(argv, argc, outfile)`: the returned pid (`none` when this process is
the forked child, which does not return), the new world and the events. -/
def launch_command {W : Type} (sys : Sys W) (w : W) (paths : List Str) (argv : List Str)
    (outfile : Option Str) : Option Int × W × List Event :=
  match argv with
  | [] => (some (-1), w, [])
  | cmd :: _ =>
    match resolve_executable (sys.access w) paths cmd with
    | none => (some (-1), w, [Event.error])
    | some fullpath =>
      let r := sys.fork w
      if r.1 < 0 then (some (-1), r.2, [Event.error])
      else if r.1 = 0 then (none, r.2, [Event.exec fullpath argv outfile])
      else (some r.1, r.2, [Event.launch r.1 fullpath argv outfile])

/-! ## `handle_single_command` -/

/-- Lines 196-255 of `handle_single_command`: built-in dispatch and external launch. -/
def dispatch {W : Type} (sys : Sys W) (paths : List Str) (w : W) (argv : List Str)
    (outfile : Option Str) : Step W :=
  if argv.head? = some "exit".toList then
    if argv.length ≠ 1 then ⟨Ret.returned (-1) (-1), paths, w, [Event.error]⟩
    else ⟨Ret.exited 0, paths, w, []⟩
  else if argv.head? = some "cd".toList then
    match argv with
    | [_, dir] =>
      match sys.chdir w dir with
      | none => ⟨Ret.returned (-1) (-1), paths, w, [Event.chdir dir false, Event.error]⟩
      | some w2 => ⟨Ret.returned 0 (-1), paths, w2, [Event.chdir dir true]⟩
    | _ => ⟨Ret.returned (-1) (-1), paths, w, [Event.error]⟩
  else if argv.head? = some "path".toList then
    ⟨Ret.returned 0 (-1), set_path argv.tail (argv.length - 1), w, []⟩
  else
    match launch_command sys w paths argv outfile with
    | (none, w2, ev) => ⟨Ret.child, paths, w2, ev⟩
    | (some pid, w2, ev) =>
      if 0 < pid then ⟨Ret.returned 1 pid, paths, w2, ev⟩
      else ⟨Ret.returned (-1) (-1), paths, w2, ev⟩

/-- The function `handle_single_command(command, &out_pid)`: parsing stage, then dispatch. -/
def handle_single_command {W : Type} (sys : Sys W) (paths : List Str) (w : W)
    (command : Str) : Step W :=
  match parse_stage command with
  | Parsed.fail reported =>
    ⟨Ret.returned (-1) (-1), paths, w, if reported then [Event.error] else []⟩
  | Parsed.ok argv outfile => dispatch sys paths w argv outfile

/-! ## `main` -/

/-- The interpreter's variables while one line is processed. -/
structure LineState (W : Type) where
  paths : List Str
  world : W
  /-- The handles stored so far, `pids[0 .. pcount-1]`, as a list: `pcount` is its length.
  The list is the content of the array as long as its length is at most `MAX_TOKENS`;
  the source stores without a bound check, so a longer list stands for stores outside the
  array, and statements that read the handles back assume the length is within
  `MAX_TOKENS`. -/
  pids : List Int
  error_in_line : Bool
  /-- Events performed so far. -/
  trace : List Event

/-- Whether the interpreter is still running after a step. -/
inductive Outcome where
  | running
  | exited (status : Int)
  | child
  deriving DecidableEq, Repr

/-- The body shared by both branches of the segmentation loop (lines 312-327 and
332-346): `cmd` is the text of one piece. -/
def run_piece {W : Type} (sys : Sys W) (st : LineState W) (cmd : Str) :
    Outcome × LineState W :=
  let cmd_trim := trim cmd
  if cmd_trim.length = 0 then (Outcome.running, { st with error_in_line := true })
  else
    let r := handle_single_command sys st.paths st.world cmd_trim
    match r.ret with
    | Ret.returned rc child =>
      (Outcome.running,
        { paths := r.paths, world := r.world,
          pids := if 0 < child then st.pids ++ [child] else st.pids,
          error_in_line := st.error_in_line || rc == -1,
          trace := st.trace ++ r.events })
    | Ret.exited status =>
      (Outcome.exited status, { st with paths := r.paths, world := r.world,
                                        trace := st.trace ++ r.events })
    | Ret.child =>
      (Outcome.child, { st with paths := r.paths, world := r.world,
                                trace := st.trace ++ r.events })

/-- The inner `while (1)` of `main` (lines 308-350); `start` is the cursor. -/
def segment_loop {W : Type} (sys : Sys W) : Nat → Str → LineState W → Outcome × LineState W
  | 0, _, st => (Outcome.running, st)
  | fuel + 1, start, st =>
    match strchr start '&' with
    | none => run_piece sys st start
    | some amp =>
      match run_piece sys st (before_char '&' start) with
      | (Outcome.running, st2) => segment_loop sys fuel amp.tail st2
      | r => r

/-- The wait loop of lines 353-356. -/
def wait_all {W : Type} (sys : Sys W) (pids : List Int) (w : W) : W :=
  pids.foldl sys.waitpid w

/-- Line 294: drop one trailing newline. -/
def strip_newline (line : Str) : Str :=
  if line.getLast? = some '\n' then line.dropLast else line

/-- One iteration of the outer loop after `getline` succeeded (lines 293-357), started
with the search path `paths` in world `w`. -/
def process_line {W : Type} (sys : Sys W) (paths : List Str) (w : W) (line : Str) :
    Outcome × LineState W :=
  let tline := trim (strip_newline line)
  let st0 : LineState W := ⟨paths, w, [], false, []⟩
  if tline.length = 0 then (Outcome.running, st0)
  else
    match segment_loop sys (tline.length + 1) tline st0 with
    | (Outcome.running, st) =>
      (Outcome.running,
        { st with world := wait_all sys st.pids st.world,
                  trace := st.trace ++ st.pids.map Event.wait })
    | r => r

/-- What is left when the interpreter stops. -/
structure Final (W : Type) where
  outcome : Outcome
  paths : List Str
  world : W
  trace : List Event

/-- The outer `while (1)` of `main` over the lines still to be delivered by `getline`
(the empty list is end of input). -/
def main_loop {W : Type} (sys : Sys W) (interactive : Bool) :
    List Str → List Str → W → Final W
  | [], paths, w =>
    ⟨Outcome.exited 0, paths, w,
      (if interactive then [Event.prompt] else []) ++ [Event.read_line]⟩
  | line :: rest, paths, w =>
    let pre := (if interactive then [Event.prompt] else []) ++ [Event.read_line]
    match process_line sys paths w line with
    | (Outcome.running, st) =>
      let f := main_loop sys interactive rest st.paths st.world
      { f with trace := pre ++ st.trace ++ f.trace }
    | (o, st) => ⟨o, st.paths, st.world, pre ++ st.trace⟩

/-- The function `main` after argument handling: default path, then the loop. -/
def wish_main {W : Type} (sys : Sys W) (interactive : Bool) (input : List Str) (w : W) :
    Final W :=
  main_loop sys interactive input init_default_path w

/-! ## A small concrete system for evaluation -/

/-- A world that counts `fork` calls; every path ending in a name from `exes` is
executable, `chdir` succeeds exactly on `/tmp`, and the n-th fork returns `100 + n`. -/
def demoSys (exes : List Str) : Sys Nat where
  access := fun _ p => exes.contains p
  chdir := fun w d => if d = "/tmp".toList then some w else none
  fork := fun w => (100 + (w : Int), w + 1)
  waitpid := fun w _ => w

/-- A system whose `fork` always fails. -/
def noForkSys (exes : List Str) : Sys Nat where
  access := fun _ p => exes.contains p
  chdir := fun _ _ => none
  fork := fun w => (-1, w)
  waitpid := fun w _ => w

/-! ## Vocabulary of the statements -/

/-- The text to the right of the first `ch` in `s` (empty when there is none). -/
def text_right_of (ch : Char) (s : Str) : Str :=
  (s.dropWhile (fun x => x != ch)).tail

/-- Malformed redirection, on the segment as typed: the first non-blank character is the
marker, or there are two markers, or the trimmed text right of the only marker is empty
or has more than one token. -/
def malformed (c : Str) : Prop :=
  (trim c).head? = some '>' ∨ 2 ≤ c.count '>' ∨
    (c.count '>' = 1 ∧ (trim (text_right_of '>' c) = [] ∨
      1 < (tokenize_whitespace (trim (text_right_of '>' c))).length))

instance (c : Str) : Decidable (malformed c) := by
  unfold malformed
  infer_instance

/-- The same condition read literally: the very first character of the segment is the
marker, and the text right of the marker is tokenized as it stands. -/
def malformed_literal (c : Str) : Prop :=
  c.head? = some '>' ∨ 2 ≤ c.count '>' ∨
    (c.count '>' = 1 ∧ (trim (text_right_of '>' c) = [] ∨
      1 < (tokenize_whitespace (text_right_of '>' c)).length))

instance (c : Str) : Decidable (malformed_literal c) := by
  unfold malformed_literal
  infer_instance

/-- The pieces `ps` written on one line with `&` between them. -/
def join_amp : List Str → Str
  | [] => []
  | [p] => p
  | p :: q :: qs => p ++ '&' :: join_amp (q :: qs)

/-- The pieces of a line handled one after the other, stopping as soon as the interpreter
is no longer running. -/
def run_pieces {W : Type} (sys : Sys W) : List Str → LineState W → Outcome × LineState W
  | [], st => (Outcome.running, st)
  | p :: ps, st =>
    match run_piece sys st p with
    | (Outcome.running, st2) => run_pieces sys ps st2
    | r => r

/-- Lines 352-357 after the segmentation loop: wait for every recorded handle. -/
def finish_line {W : Type} (sys : Sys W) (r : Outcome × LineState W) :
    Outcome × LineState W :=
  match r with
  | (Outcome.running, st) =>
    (Outcome.running,
      { st with world := wait_all sys st.pids st.world,
                trace := st.trace ++ st.pids.map Event.wait })
  | r => r

/-- Events a segment can perform: everything but waits, prompts and line reads. -/
def is_segment_event : Event → Bool
  | Event.wait _ => false
  | Event.prompt => false
  | Event.read_line => false
  | _ => true

/-- The pids of the processes created in a trace, in order. -/
def launched_pids : List Event → List Int
  | [] => []
  | Event.launch pid _ _ _ :: es => pid :: launched_pids es
  | _ :: es => launched_pids es

/-- The process creations of a trace, in order. -/
def launches_of : List Event → List Event
  | [] => []
  | Event.launch pid full argv outfile :: es =>
    Event.launch pid full argv outfile :: launches_of es
  | _ :: es => launches_of es

/-- The number of generic error messages in a trace. -/
def error_count : List Event → Nat
  | [] => 0
  | Event.error :: es => error_count es + 1
  | _ :: es => error_count es

/-- A segment that fails locally in the state `(paths, w)`: it is empty or its redirection
is malformed (the parsing stage fails), or it misuses a built-in (`exit` with arguments,
`cd` without exactly one argument or to a directory that cannot be entered), or its
program name does not resolve. -/
def fails_locally {W : Type} (sys : Sys W) (paths : List Str) (w : W) (s : Str) : Prop :=
  (∃ b, parse_stage s = Parsed.fail b) ∨
  ∃ argv outfile, parse_stage s = Parsed.ok argv outfile ∧
    ((argv.head? = some "exit".toList ∧ argv.length ≠ 1) ∨
     (argv.head? = some "cd".toList ∧ argv.length ≠ 2) ∨
     (∃ dir, argv = ["cd".toList, dir] ∧ sys.chdir w dir = none) ∨
     (∃ name, argv.head? = some name ∧ name ≠ "exit".toList ∧ name ≠ "cd".toList ∧
        name ≠ "path".toList ∧ resolve_executable (sys.access w) paths name = none))

/-- Two states of a line agree on everything but the error messages and the error flag:
same Search Path, world, recorded handles and process creations. -/
def same_state {W : Type} (s1 s2 : LineState W) : Prop :=
  s1.paths = s2.paths ∧ s1.world = s2.world ∧ s1.pids = s2.pids ∧
    launches_of s1.trace = launches_of s2.trace

/-- Two results of processing a line agree on everything but the error messages: same
outcome, Search Path, world, recorded handles and process creations. -/
def same_effects {W : Type} (r1 r2 : Outcome × LineState W) : Prop :=
  r1.1 = r2.1 ∧ same_state r1.2 r2.2

/-- The maximal runs of characters of `s` other than space, tab and newline, from left to
right: the pieces of `s` between separators, the empty pieces left out. -/
def token_runs (s : Str) : List Str :=
  (s.splitOnP is_token_sep).filter (fun t => !t.isEmpty)

/-- The inner `while (1)` of `main` once more, recording the pieces it hands to its body
(the text of `cmd` at lines 312 and 332), in the order in which it visits them. -/
def segment_visits {W : Type} (sys : Sys W) : Nat → Str → LineState W → List Str
  | 0, _, _ => []
  | fuel + 1, start, st =>
    match strchr start '&' with
    | none => [start]
    | some amp =>
      match run_piece sys st (before_char '&' start) with
      | (Outcome.running, st2) =>
        before_char '&' start :: segment_visits sys fuel amp.tail st2
      | _ => [before_char '&' start]

/-- A line of 513 commands `ls` separated by `&`: one more than `MAX_TOKENS`. -/
def overflow_line : Str := join_amp (List.replicate 513 "ls".toList)

/-- Two results agree on the outcome, the Search Path and the process creations. -/
def same_launches {W : Type} (r1 r2 : Outcome × LineState W) : Prop :=
  r1.1 = r2.1 ∧ r1.2.paths = r2.2.paths ∧ launches_of r1.2.trace = launches_of r2.2.trace

/-- A world made of the number of `fork` calls and the list of the pids reaped by
`waitpid`, in order; every path in `exes` is executable, `chdir` always fails and the n-th
fork returns `100 + n`. -/
def reapSys (exes : List Str) : Sys (Nat × List Int) where
  access := fun _ p => exes.contains p
  chdir := fun _ _ => none
  fork := fun w => (100 + (w.1 : Int), (w.1 + 1, w.2))
  waitpid := fun w pid => (w.1, w.2 ++ [pid])

/-- The inner `while (1)` of `main` with a ghost variable `seen` that collects the pieces
handed to the body: the result of the loop together with the pieces visited. -/
def segment_loop_ghost {W : Type} (sys : Sys W) :
    Nat → Str → LineState W → List Str → (Outcome × LineState W) × List Str
  | 0, _, st, seen => ((Outcome.running, st), seen)
  | fuel + 1, start, st, seen =>
    match strchr start '&' with
    | none => (run_piece sys st start, seen ++ [start])
    | some amp =>
      match run_piece sys st (before_char '&' start) with
      | (Outcome.running, st2) =>
        segment_loop_ghost sys fuel amp.tail st2 (seen ++ [before_char '&' start])
      | r => (r, seen ++ [before_char '&' start])

/-! # Lemmas and theorems -/

/-! ## Lemmas on lists of characters -/

theorem rdropWhile_append_of_all {α : Type} (p : α → Bool) (x trail : List α)
    (h : ∀ a ∈ trail, p a = true) : (x ++ trail).rdropWhile p = x.rdropWhile p := by
  have h2 : ∀ a ∈ trail.reverse, p a = true := by
    intro a ha
    exact h a (List.mem_reverse.mp ha)
  simp [List.rdropWhile, List.reverse_append, List.dropWhile_append_of_pos h2]

theorem rdropWhile_cons_of_neg {α : Type} (p : α → Bool) (c : α) (r : List α)
    (h : p c = false) : (c :: r).rdropWhile p = c :: r.rdropWhile p := by
  induction r using List.reverseRecOn with
  | nil => simp [List.rdropWhile_singleton, h]
  | append_singleton r x ih =>
    rw [← List.cons_append]
    by_cases hx : p x = true
    · rw [List.rdropWhile_concat_pos _ _ _ hx, List.rdropWhile_concat_pos _ _ _ hx, ih]
    · rw [List.rdropWhile_concat_neg _ _ _ hx, List.rdropWhile_concat_neg _ _ _ hx]
      rfl

theorem dropWhile_append_of_mem_neg {α : Type} (p : α → Bool) (x y : List α)
    (h : ∃ a ∈ x, p a = false) : (x ++ y).dropWhile p = x.dropWhile p ++ y := by
  induction x with
  | nil => simp at h
  | cons a x ih =>
    by_cases ha : p a = true
    · have h2 : ∃ b ∈ x, p b = false := by
        obtain ⟨b, hb, hpb⟩ := h
        rcases List.mem_cons.mp hb with rfl | hb
        · simp [ha] at hpb
        · exact ⟨b, hb, hpb⟩
      simp [List.dropWhile_cons, ha, ih h2]
    · simp [List.dropWhile_cons, ha]

theorem is_token_sep_of_not_trim_space {c : Char} (h : is_trim_space c = false) :
    is_token_sep c = false := by
  simp only [is_trim_space, is_token_sep, Bool.or_eq_false_iff] at *
  exact ⟨⟨h.1.1.1, h.1.1.2⟩, h.1.2⟩

/-! ## Lemmas on `trim` -/

theorem trim_eq (s : Str) :
    trim s = (s.dropWhile is_trim_space).rdropWhile is_trim_space := by
  unfold trim
  cases hd : s.dropWhile is_trim_space with
  | nil => simp
  | cons c rest =>
    have hc : is_trim_space c = false := by
      have := List.head_dropWhile_not is_trim_space s (by simp [hd])
      simpa [hd] using this
    simp [rdropWhile_cons_of_neg _ _ _ hc]

theorem trim_cons_of_neg (c : Char) (r : Str) (h : is_trim_space c = false) :
    trim (c :: r) = c :: r.rdropWhile is_trim_space := by
  simp [trim, List.dropWhile_cons, h]

theorem trim_of_all (s : Str) (h : ∀ a ∈ s, is_trim_space a = true) : trim s = [] := by
  have : s.dropWhile is_trim_space = [] := List.dropWhile_eq_nil_iff.mpr h
  simp [trim, this]

/-- A string that trims to something non-empty trims to a string whose first character is
not a blank. -/
theorem trim_ne_nil_head (s : Str) (h : trim s ≠ []) :
    ∃ c r, trim s = c :: r ∧ is_trim_space c = false ∧ r.rdropWhile is_trim_space = r := by
  unfold trim at *
  cases hd : s.dropWhile is_trim_space with
  | nil => simp [hd] at h
  | cons c rest =>
    have hc : is_trim_space c = false := by
      have := List.head_dropWhile_not is_trim_space s (by simp [hd])
      simpa [hd] using this
    exact ⟨c, _, rfl, hc, List.rdropWhile_idempotent _ _⟩

theorem trim_idem (s : Str) : trim (trim s) = trim s := by
  by_cases h : trim s = []
  · rw [h]; rfl
  · obtain ⟨c, r, hcr, hc, hr⟩ := trim_ne_nil_head s h
    rw [hcr, trim_cons_of_neg c r hc, hr]

/-- Every string is its trimmed text between a run of leading and a run of trailing
blanks. -/
theorem trim_decomp (s : Str) :
    ∃ lead trail, (∀ a ∈ lead, is_trim_space a = true) ∧
      (∀ a ∈ trail, is_trim_space a = true) ∧ s = lead ++ trim s ++ trail := by
  refine ⟨s.takeWhile is_trim_space,
    (s.dropWhile is_trim_space).rtakeWhile is_trim_space, ?_, ?_, ?_⟩
  · intro a ha
    exact List.mem_takeWhile_imp ha
  · intro a ha
    exact List.mem_rtakeWhile_imp ha
  · have key : ∀ l : Str, l.rdropWhile is_trim_space ++ l.rtakeWhile is_trim_space = l := by
      intro l
      simp only [List.rdropWhile, List.rtakeWhile, ← List.reverse_append,
        List.takeWhile_append_dropWhile, List.reverse_reverse]
    rw [trim_eq, List.append_assoc, key, List.takeWhile_append_dropWhile]

/-- Trailing blanks after a text that does not end in a blank do not change `trim`. -/
theorem trim_append_of_all (x trail : Str) (hx : x.rdropWhile is_trim_space = x)
    (h : ∀ a ∈ trail, is_trim_space a = true) : trim (x ++ trail) = trim x := by
  by_cases hall : ∀ a ∈ x, is_trim_space a = true
  · have hx0 : x = [] := by
      rw [← hx]; exact List.rdropWhile_eq_nil_iff.mpr hall
    subst hx0
    rw [List.nil_append, trim_of_all trail h]
    rfl
  · have hex : ∃ a ∈ x, is_trim_space a = false := by
      by_contra hne
      apply hall
      intro a ha
      by_contra hpa
      exact hne ⟨a, ha, by simpa using hpa⟩
    rw [trim_eq, trim_eq, dropWhile_append_of_mem_neg _ _ _ hex,
      rdropWhile_append_of_all _ _ _ h]

/-! ## Lemmas on the tokenizer -/

theorem tokenize_loop_length_ge (fuel : Nat) (p : Str) (argv : List Str) :
    argv.length ≤ (tokenize_loop fuel p argv).length := by
  induction fuel generalizing p argv with
  | zero => simp [tokenize_loop]
  | succ n ih =>
    unfold tokenize_loop
    split
    · exact Nat.le_refl _
    · dsimp only
      split
      · simp
      · refine Nat.le_trans ?_ (ih _ _)
        simp

theorem tokenize_loop_cons_of_neg (fuel : Nat) (c : Char) (cs : Str) (argv : List Str)
    (h : is_token_sep c = false) :
    argv.length + 1 ≤ (tokenize_loop (fuel + 1) (c :: cs) argv).length := by
  have hd : (c :: cs).dropWhile is_token_sep = c :: cs := by
    simp [List.dropWhile_cons, h]
  rw [tokenize_loop, hd]
  dsimp only
  split
  · simp
  · refine Nat.le_trans ?_ (tokenize_loop_length_ge _ _ _)
    simp

/-- A text that starts with a non-separator has at least one token. -/
theorem tokenize_whitespace_cons_ne_nil (c : Char) (cs : Str) (h : is_token_sep c = false) :
    tokenize_whitespace (c :: cs) ≠ [] := by
  intro hnil
  have := tokenize_loop_cons_of_neg cs.length c cs [] h
  unfold tokenize_whitespace at hnil
  rw [List.length_cons] at hnil
  rw [hnil] at this
  simp at this

/-- The trimmed text, when not empty, has at least one token. -/
theorem tokenize_trim_ne_nil (s : Str) (h : trim s ≠ []) :
    tokenize_whitespace (trim s) ≠ [] := by
  obtain ⟨c, r, hcr, hc, _⟩ := trim_ne_nil_head s h
  rw [hcr]
  exact tokenize_whitespace_cons_ne_nil c r (is_token_sep_of_not_trim_space hc)

/-! ## Lemmas bridging a segment and its trimmed text -/

theorem gt_not_trim_space : is_trim_space '>' = false := by decide

theorem count_gt_of_all (l : Str) (h : ∀ a ∈ l, is_trim_space a = true) :
    l.count '>' = 0 := by
  rw [List.count_eq_zero]
  intro hmem
  have := h _ hmem
  rw [gt_not_trim_space] at this
  exact Bool.noConfusion this

theorem count_gt_trim (c : Str) : (trim c).count '>' = c.count '>' := by
  obtain ⟨lead, trail, hl, ht, hc⟩ := trim_decomp c
  conv_rhs => rw [hc]
  simp [List.count_append, count_gt_of_all lead hl, count_gt_of_all trail ht]

theorem ne_gt_of_all (l : Str) (h : ∀ a ∈ l, is_trim_space a = true) :
    ∀ a ∈ l, (a != '>') = true := by
  intro a ha
  have h1 := h a ha
  by_contra hne
  have : a = '>' := by simpa using hne
  rw [this, gt_not_trim_space] at h1
  exact Bool.noConfusion h1

theorem text_right_of_all (l : Str) (h : ∀ a ∈ l, is_trim_space a = true) :
    text_right_of '>' l = [] := by
  unfold text_right_of
  rw [List.dropWhile_eq_nil_iff.mpr (ne_gt_of_all l h)]
  rfl

theorem text_right_of_lead (lead x : Str) (h : ∀ a ∈ lead, is_trim_space a = true) :
    text_right_of '>' (lead ++ x) = text_right_of '>' x := by
  unfold text_right_of
  rw [List.dropWhile_append_of_pos (ne_gt_of_all lead h)]

theorem rdropWhile_tail_of_self (a : Char) (x : Str)
    (h : (a :: x).rdropWhile is_trim_space = a :: x) :
    x.rdropWhile is_trim_space = x := by
  rw [List.rdropWhile_eq_self_iff] at *
  intro hl
  have := h (by simp)
  rwa [List.getLast_cons hl] at this

theorem trim_text_right_append (x trail : Str) (hx : x.rdropWhile is_trim_space = x)
    (h : ∀ a ∈ trail, is_trim_space a = true) :
    trim (text_right_of '>' (x ++ trail)) = trim (text_right_of '>' x) := by
  induction x with
  | nil =>
    rw [List.nil_append, text_right_of_all trail h]
    rfl
  | cons a x ih =>
    have hx2 := rdropWhile_tail_of_self a x hx
    by_cases ha : a = '>'
    · subst ha
      simp only [text_right_of, List.cons_append, List.dropWhile_cons, bne_self_eq_false,
        Bool.false_eq_true, if_false, List.tail_cons]
      exact trim_append_of_all x trail hx2 h
    · have hne : (a != '>') = true := by simpa using ha
      have e1 : text_right_of '>' (a :: x ++ trail) = text_right_of '>' (x ++ trail) := by
        simp [text_right_of, List.dropWhile_cons, hne]
      have e2 : text_right_of '>' (a :: x) = text_right_of '>' x := by
        simp [text_right_of, List.dropWhile_cons, hne]
      rw [e1, e2]
      exact ih hx2

/-- Trimming the segment first does not change the trimmed text right of the marker. -/
theorem trim_text_right_trim (c : Str) :
    trim (text_right_of '>' (trim c)) = trim (text_right_of '>' c) := by
  obtain ⟨lead, trail, hl, ht, hc⟩ := trim_decomp c
  have hself : (trim c).rdropWhile is_trim_space = trim c := by
    rw [trim_eq]
    exact List.rdropWhile_idempotent _ _
  conv_rhs => rw [hc, List.append_assoc, text_right_of_lead _ _ hl]
  exact (trim_text_right_append (trim c) trail hself ht).symm

/-! ## Lemmas on `strchr` -/

theorem dropWhile_ne_head (ch : Char) (s : Str) (g : Char) (rest : Str)
    (h : s.dropWhile (fun x => x != ch) = g :: rest) : g = ch := by
  have := List.head_dropWhile_not (fun x => x != ch) s (by simp [h])
  simpa [h] using this

theorem strchr_eq_none_iff (s : Str) (ch : Char) : strchr s ch = none ↔ ch ∉ s := by
  unfold strchr
  constructor
  · intro h
    split at h
    · rename_i hd
      intro hmem
      have := List.dropWhile_eq_nil_iff.mp hd ch hmem
      simp at this
    · exact Option.noConfusion h
  · intro h
    have hd : s.dropWhile (fun x => x != ch) = [] := by
      rw [List.dropWhile_eq_nil_iff]
      intro x hx
      have : x ≠ ch := fun e => h (e ▸ hx)
      simpa using this
    rw [hd]

theorem strchr_eq_some (s : Str) (ch : Char) (g : Char) (rest : Str)
    (h : s.dropWhile (fun x => x != ch) = g :: rest) : strchr s ch = some (ch :: rest) := by
  have hg := dropWhile_ne_head ch s g rest h
  subst hg
  unfold strchr
  rw [h]

theorem count_of_dropWhile_ne (ch : Char) (s : Str) :
    s.count ch = (s.dropWhile (fun x => x != ch)).count ch := by
  conv_lhs => rw [← List.takeWhile_append_dropWhile (fun x => x != ch) s]
  rw [List.count_append]
  have : (s.takeWhile (fun x => x != ch)).count ch = 0 := by
    rw [List.count_eq_zero]
    intro hmem
    have := List.mem_takeWhile_imp hmem
    simp at this
  omega

theorem strchr_isSome_iff (s : Str) (ch : Char) : (strchr s ch).isSome ↔ 0 < s.count ch := by
  rw [List.count_pos_iff]
  constructor
  · intro h
    by_contra hn
    rw [(strchr_eq_none_iff s ch).mpr hn] at h
    exact Bool.noConfusion h
  · intro h
    cases hs : strchr s ch with
    | none => exact absurd h ((strchr_eq_none_iff s ch).mp hs)
    | some r => rfl

theorem dropWhile_space_of_not_trim_space (c : Char) (r : Str) (h : is_trim_space c = false) :
    (c :: r).dropWhile (fun x => x == ' ') = c :: r := by
  have : (c == ' ') = false := by
    simp only [is_trim_space, Bool.or_eq_false_iff] at h
    exact h.1.1.1
  simp [List.dropWhile_cons, this]

theorem parse_stage_cases (s : Str) (c : Char) (r : Str) (ht : trim s = c :: r)
    (hc : is_trim_space c = false) :
    (malformed s ∧ parse_stage s = Parsed.fail true) ∨
    (¬ malformed s ∧ ∃ argv outfile, argv ≠ [] ∧ parse_stage s = Parsed.ok argv outfile
      ∧ argv = tokenize_whitespace (trim (before_char '>' (trim s)))
      ∧ ((s.count '>' = 0 ∧ outfile = none) ∨
         (s.count '>' = 1 ∧ ∃ f, tokenize_whitespace (trim (text_right_of '>' s)) = [f] ∧
            outfile = some f))) := by
  have hm : malformed s ↔ (c = '>' ∨ 2 ≤ (c :: r).count '>' ∨
      ((c :: r).count '>' = 1 ∧ (trim (text_right_of '>' (c :: r)) = [] ∨
        1 < (tokenize_whitespace (trim (text_right_of '>' (c :: r)))).length))) := by
    unfold malformed
    rw [← count_gt_trim s, ← trim_text_right_trim s, ht]
    simp
  have e1 : parse_stage s =
      if c = '>' then Parsed.fail true
      else
        match strchr (c :: r) '>' with
        | none => parse_left (c :: r) none
        | some redir =>
          if redir = c :: r then Parsed.fail true
          else if (strchr redir.tail '>').isSome then Parsed.fail true
          else
            if (trim redir.tail).length = 0 then Parsed.fail true
            else
              if (tokenize_whitespace (trim redir.tail)).length ≠ 1 then Parsed.fail true
              else parse_left (before_char '>' (c :: r))
                ((tokenize_whitespace (trim redir.tail)).head?) := by
    unfold parse_stage
    simp only [ht, dropWhile_space_of_not_trim_space c r hc, List.head?_cons,
      List.length_cons, Option.some.injEq]
    simp
  by_cases hgt : c = '>'
  · exact Or.inl ⟨hm.mpr (Or.inl hgt), by rw [e1, if_pos hgt]⟩
  · rw [e1, if_neg hgt, ht]
    have hne : (c != '>') = true := by simpa using hgt
    have hdw : (c :: r).dropWhile (fun x => x != '>') = r.dropWhile (fun x => x != '>') := by
      simp [List.dropWhile_cons, hne]
    have hbefore : before_char '>' (c :: r) = c :: before_char '>' r := by
      simp [before_char, List.takeWhile_cons, hne]
    have htok_left : tokenize_whitespace (trim (before_char '>' (c :: r))) ≠ [] := by
      apply tokenize_trim_ne_nil
      rw [hbefore, trim_cons_of_neg _ _ hc]
      simp
    have hleft : parse_left (before_char '>' (c :: r)) =
        fun o => Parsed.ok (tokenize_whitespace (trim (before_char '>' (c :: r)))) o := by
      funext o
      unfold parse_left
      simp [htok_left]
    have hcount : (c :: r).count '>' = (r.dropWhile (fun x => x != '>')).count '>' := by
      rw [count_of_dropWhile_ne, hdw]
    cases hd : r.dropWhile (fun x => x != '>') with
    | nil =>
      have hs : strchr (c :: r) '>' = none := by
        unfold strchr
        rw [hdw, hd]
      have hbc : before_char '>' (c :: r) = c :: r := by
        have := List.takeWhile_append_dropWhile (fun x => x != '>') (c :: r)
        rw [hdw, hd, List.append_nil] at this
        exact this
      rw [hs]
      right
      refine ⟨?_, tokenize_whitespace (trim (c :: r)), none, ?_, ?_, ?_, ?_⟩
      · rw [hm, hcount, hd]
        simp [hgt]
      · rw [← hbc]
        exact htok_left
      · show parse_left (c :: r) none = _
        rw [← hbc, hleft, hbc]
      · rw [hbc]
      · refine Or.inl ⟨?_, rfl⟩
        rw [← count_gt_trim s, ht, hcount, hd]
        rfl
    | cons g rest =>
      have hs : strchr (c :: r) '>' = some ('>' :: rest) :=
        strchr_eq_some _ _ g rest (by rw [hdw, hd])
      have hg : g = '>' := dropWhile_ne_head '>' r g rest hd
      have hcount2 : (c :: r).count '>' = 1 + rest.count '>' := by
        rw [hcount, hd, hg, List.count_cons_self]
        omega
      have htr2 : text_right_of '>' (c :: r) = rest := by
        unfold text_right_of
        rw [hdw, hd]
        rfl
      have hneq : ¬ ('>' :: rest = c :: r) := by
        intro h
        injection h with h1 _
        exact hgt h1.symm
      rw [hs]
      simp only [List.tail_cons]
      rw [if_neg hneq, hm, hcount2, htr2]
      by_cases h2 : (strchr rest '>').isSome = true
      · left
        rw [if_pos h2]
        refine ⟨Or.inr (Or.inl ?_), rfl⟩
        have := (strchr_isSome_iff _ _).mp h2
        omega
      · rw [if_neg h2]
        have hz : rest.count '>' = 0 := by
          have := (strchr_isSome_iff rest '>').not.mp h2
          omega
        by_cases h3 : (trim rest).length = 0
        · left
          rw [if_pos h3]
          exact ⟨Or.inr (Or.inr ⟨by omega, Or.inl (List.length_eq_zero.mp h3)⟩), rfl⟩
        · rw [if_neg h3]
          have hne3 : trim rest ≠ [] := fun h => h3 (by rw [h]; rfl)
          have htok := List.length_pos.mpr (tokenize_trim_ne_nil rest hne3)
          by_cases h4 : (tokenize_whitespace (trim rest)).length ≠ 1
          · left
            rw [if_pos h4]
            exact ⟨Or.inr (Or.inr ⟨by omega, Or.inr (by omega)⟩), rfl⟩
          · rw [if_neg h4, hleft]
            right
            refine ⟨?_, _, _, htok_left, rfl, rfl, Or.inr ⟨?_, ?_⟩⟩
            · rintro (h | h | ⟨_, h | h⟩)
              · exact hgt h
              · omega
              · exact hne3 h
              · omega
            · rw [← count_gt_trim s, ht, hcount2, hz]
            · have h5 : (tokenize_whitespace (trim rest)).length = 1 := by omega
              obtain ⟨f, hf⟩ := List.length_eq_one.mp h5
              refine ⟨f, ?_, ?_⟩
              · rw [← trim_text_right_trim s, ht, htr2, hf]
              · rw [hf]
                rfl

/-! ## C1: redirection syntax -/

/-- C1 (amended): for every segment `c` that is not empty after trimming, the parsing stage
of `handle_single_command` fails if and only if the first non-blank character of `c` is
the marker, or `c` holds two or more markers, or it holds exactly one and the trimmed text
to its right is empty or tokenizes to more than one token; a failure emits the generic
error once, returns -1 and changes nothing, and in every other case parsing yields a
non-empty argument vector that is handed to the dispatch. -/
theorem C1_parse_fails_iff_malformed (c : Str) (h : trim c ≠ []) :
    ((∃ r, parse_stage c = Parsed.fail r) ↔ malformed c) ∧
    (malformed c → ∀ (W : Type) (sys : Sys W) (paths : List Str) (w : W),
      handle_single_command sys paths w c =
        ⟨Ret.returned (-1) (-1), paths, w, [Event.error]⟩) ∧
    (¬ malformed c → ∃ argv outfile, argv ≠ [] ∧ parse_stage c = Parsed.ok argv outfile ∧
      ∀ (W : Type) (sys : Sys W) (paths : List Str) (w : W),
        handle_single_command sys paths w c = dispatch sys paths w argv outfile) := by
  obtain ⟨a, r, ht, ha, _⟩ := trim_ne_nil_head c h
  rcases parse_stage_cases c a r ht ha with ⟨hm, hp⟩ | ⟨hm, argv, outfile, hne, hp, _, _⟩
  · refine ⟨⟨fun _ => hm, fun _ => ⟨true, hp⟩⟩, ?_, fun hn => absurd hm hn⟩
    intro _ W sys paths w
    unfold handle_single_command
    rw [hp]
    rfl
  · refine ⟨⟨?_, fun hm2 => absurd hm2 hm⟩, fun hm2 => absurd hm2 hm, ?_⟩
    · rintro ⟨b, hb⟩
      rw [hp] at hb
      exact Parsed.noConfusion hb
    · intro _
      refine ⟨argv, outfile, hne, hp, ?_⟩
      intro W sys paths w
      unfold handle_single_command
      rw [hp]

/-- Witness for C1 at the segment `ls >`. -/
theorem C1_parse_fails_iff_malformed_witness :
    trim "ls >".toList ≠ [] ∧ malformed "ls >".toList :=
  ⟨by decide,
    (C1_parse_fails_iff_malformed "ls >".toList (by decide)).1.mp ⟨true, by decide⟩⟩

/-- C1 as written fails: the segment ` > f` (blank first) is rejected although its first
character is not the marker, it holds one marker and one token right of it; and the
segment `ls >\r f` is accepted although the text right of its marker, tokenized as it
stands, has two tokens. -/
theorem C1_counterexample :
    (trim " > f".toList ≠ [] ∧ parse_stage " > f".toList = Parsed.fail true ∧
      ¬ malformed_literal " > f".toList) ∧
    (trim "ls >\r f".toList ≠ [] ∧ malformed_literal "ls >\r f".toList ∧
      parse_stage "ls >\r f".toList = Parsed.ok ["ls".toList] (some "f".toList)) := by
  decide

/-! ## C3: path resolution -/

theorem resolve_loop_eq_some_iff (access : Str → Bool) (name : Str) (ds : List Str) (P : Str) :
    resolve_loop access name ds = some P ↔
      ∃ (i : Nat) (d : Str), ds[i]? = some d ∧ P = d ++ '/' :: name ∧ access P = true ∧
        ∀ (j : Nat) (e : Str), j < i → ds[j]? = some e → access (e ++ '/' :: name) = false := by
  induction ds with
  | nil => simp [resolve_loop]
  | cons d ds ih =>
    unfold resolve_loop
    by_cases hacc : access (d ++ '/' :: name) = true
    · simp only [hacc, if_true, Option.some.injEq]
      constructor
      · intro hP
        subst hP
        exact ⟨0, d, List.getElem?_cons_zero, rfl, hacc, fun j e hj => absurd hj (Nat.not_lt_zero j)⟩
      · rintro ⟨i, e, hi, hP, _, hmin⟩
        cases i with
        | zero =>
          simp only [List.getElem?_cons_zero, Option.some.injEq] at hi
          rw [hP, hi]
        | succ k =>
          have := hmin 0 d (Nat.succ_pos k) List.getElem?_cons_zero
          rw [hacc] at this
          exact Bool.noConfusion this
    · simp only [hacc, if_false, Bool.false_eq_true]
      rw [ih]
      constructor
      · rintro ⟨i, e, hi, hP, hacc2, hmin⟩
        refine ⟨i + 1, e, by simpa using hi, hP, hacc2, ?_⟩
        intro j f hj hf
        cases j with
        | zero =>
          simp only [List.getElem?_cons_zero, Option.some.injEq] at hf
          rw [← hf]
          simpa using hacc
        | succ k =>
          exact hmin k f (Nat.lt_of_succ_lt_succ hj) (by simpa using hf)
      · rintro ⟨i, e, hi, hP, hacc2, hmin⟩
        cases i with
        | zero =>
          simp only [List.getElem?_cons_zero, Option.some.injEq] at hi
          rw [hP, ← hi] at hacc2
          exact absurd hacc2 hacc
        | succ k =>
          refine ⟨k, e, by simpa using hi, hP, hacc2, ?_⟩
          intro j f hj hf
          exact hmin (j + 1) f (Nat.succ_lt_succ hj) (by simpa using hf)

theorem resolve_loop_eq_none_iff (access : Str → Bool) (name : Str) (ds : List Str) :
    resolve_loop access name ds = none ↔ ∀ d ∈ ds, access (d ++ '/' :: name) = false := by
  induction ds with
  | nil => simp [resolve_loop]
  | cons d ds ih =>
    unfold resolve_loop
    by_cases hacc : access (d ++ '/' :: name) = true
    · simp [hacc]
    · simp only [hacc, if_false, Bool.false_eq_true]
      rw [ih]
      simp only [List.mem_cons, forall_eq_or_imp]
      constructor
      · intro h
        exact ⟨by simpa using hacc, h⟩
      · intro h
        exact h.2

theorem resolve_executable_eq_loop (access : Str → Bool) (paths : List Str) (name : Str) :
    resolve_executable access paths name = resolve_loop access name paths := by
  unfold resolve_executable
  cases paths with
  | nil => rfl
  | cons d ds => simp

/-- C3: `resolve_executable` returns `d_i + "/" + name` for the smallest index `i` whose
candidate satisfies the predicate, fails exactly when the Search Path is empty or no
candidate satisfies it, and is a function of the Search Path, the name and the predicate
(it is the first hit of the predicate in the list of candidates). -/
theorem C3_resolve_first_match (access : Str → Bool) (paths : List Str) (name : Str) :
    (∀ P, resolve_executable access paths name = some P ↔
      ∃ (i : Nat) (d : Str), paths[i]? = some d ∧ P = d ++ '/' :: name ∧ access P = true ∧
        ∀ (j : Nat) (e : Str), j < i → paths[j]? = some e → access (e ++ '/' :: name) = false) ∧
    (resolve_executable access paths name = none ↔
      (paths = [] ∨ ∀ d ∈ paths, access (d ++ '/' :: name) = false)) ∧
    resolve_executable access paths name =
      (paths.map (fun d => d ++ '/' :: name)).find? access := by
  rw [resolve_executable_eq_loop]
  refine ⟨fun P => resolve_loop_eq_some_iff access name paths P, ?_, ?_⟩
  · rw [resolve_loop_eq_none_iff]
    constructor
    · exact fun h => Or.inr h
    · rintro (h | h)
      · subst h
        simp
      · exact h
  · induction paths with
    | nil => rfl
    | cons d ds ih =>
      unfold resolve_loop
      by_cases hacc : access (d ++ '/' :: name) = true
      · simp [hacc]
      · simp only [hacc, if_false, Bool.false_eq_true, List.map_cons, List.find?_cons]
        rw [ih]

/-! ## Lemmas on `handle_single_command` and the dispatch -/

theorem handle_of_parse_ok {W : Type} (sys : Sys W) (paths : List Str) (w : W) (c : Str)
    (argv : List Str) (outfile : Option Str) (h : parse_stage c = Parsed.ok argv outfile) :
    handle_single_command sys paths w c = dispatch sys paths w argv outfile := by
  unfold handle_single_command
  rw [h]

theorem handle_of_parse_fail {W : Type} (sys : Sys W) (paths : List Str) (w : W) (c : Str)
    (b : Bool) (h : parse_stage c = Parsed.fail b) :
    handle_single_command sys paths w c =
      ⟨Ret.returned (-1) (-1), paths, w, if b then [Event.error] else []⟩ := by
  unfold handle_single_command
  rw [h]

theorem parse_stage_trim (c : Str) : parse_stage (trim c) = parse_stage c := by
  unfold parse_stage
  rw [trim_idem]

theorem handle_trim {W : Type} (sys : Sys W) (paths : List Str) (w : W) (c : Str) :
    handle_single_command sys paths w (trim c) = handle_single_command sys paths w c := by
  unfold handle_single_command
  rw [parse_stage_trim]

theorem trim_ne_nil_of_parse_ok (c : Str) (argv : List Str) (outfile : Option Str)
    (h : parse_stage c = Parsed.ok argv outfile) : trim c ≠ [] := by
  intro hnil
  unfold parse_stage at h
  simp [hnil] at h

/-- What a successful parse returns. -/
theorem parse_ok_spec (c : Str) (argv : List Str) (outfile : Option Str)
    (h : parse_stage c = Parsed.ok argv outfile) :
    ¬ malformed c ∧ argv ≠ [] ∧
    argv = tokenize_whitespace (trim (before_char '>' (trim c))) ∧
    ((c.count '>' = 0 ∧ outfile = none) ∨
      (c.count '>' = 1 ∧ ∃ f, tokenize_whitespace (trim (text_right_of '>' c)) = [f] ∧
        outfile = some f)) := by
  obtain ⟨a, r, ht, ha, _⟩ := trim_ne_nil_head c (trim_ne_nil_of_parse_ok c argv outfile h)
  rcases parse_stage_cases c a r ht ha with ⟨_, hp⟩ | ⟨hm, argv2, outfile2, hne, hp, hargv, hout⟩
  · rw [hp] at h
    exact Parsed.noConfusion h
  · rw [hp] at h
    injection h with h1 h2
    subst h1
    subst h2
    exact ⟨hm, hne, hargv, hout⟩

theorem dispatch_exit_misuse {W : Type} (sys : Sys W) (paths : List Str) (w : W)
    (argv : List Str) (outfile : Option Str) (h : argv.head? = some "exit".toList)
    (hlen : argv.length ≠ 1) :
    dispatch sys paths w argv outfile = ⟨Ret.returned (-1) (-1), paths, w, [Event.error]⟩ := by
  unfold dispatch
  rw [if_pos h, if_pos hlen]

theorem dispatch_exit {W : Type} (sys : Sys W) (paths : List Str) (w : W)
    (outfile : Option Str) :
    dispatch sys paths w ["exit".toList] outfile = ⟨Ret.exited 0, paths, w, []⟩ := by
  unfold dispatch
  simp

theorem dispatch_cd_misuse {W : Type} (sys : Sys W) (paths : List Str) (w : W)
    (argv : List Str) (outfile : Option Str) (h : argv.head? = some "cd".toList)
    (hlen : argv.length ≠ 2) :
    dispatch sys paths w argv outfile = ⟨Ret.returned (-1) (-1), paths, w, [Event.error]⟩ := by
  have hne : ¬ (argv.head? = some "exit".toList) := by
    rw [h]
    decide
  unfold dispatch
  rw [if_neg hne, if_pos h]
  split
  · simp at hlen
  · rfl

theorem dispatch_path {W : Type} (sys : Sys W) (paths : List Str) (w : W)
    (ts : List Str) (outfile : Option Str) :
    dispatch sys paths w ("path".toList :: ts) outfile = ⟨Ret.returned 0 (-1), ts, w, []⟩ := by
  have h1 : ¬ (("path".toList :: ts).head? = some "exit".toList) := by
    rw [List.head?_cons]
    decide
  have h2 : ¬ (("path".toList :: ts).head? = some "cd".toList) := by
    rw [List.head?_cons]
    decide
  have h3 : set_path ts ts.length = ts := by
    unfold set_path
    split
    · rename_i hz
      exact (List.length_eq_zero.mp hz).symm
    · exact List.take_length ts
  unfold dispatch
  rw [if_neg h1, if_neg h2, if_pos (by rw [List.head?_cons])]
  simp only [List.tail_cons, List.length_cons, Nat.add_sub_cancel]
  rw [h3]

theorem dispatch_external {W : Type} (sys : Sys W) (paths : List Str) (w : W)
    (argv : List Str) (outfile : Option Str) (name : Str) (hname : argv.head? = some name)
    (hb : name ≠ "exit".toList ∧ name ≠ "cd".toList ∧ name ≠ "path".toList) :
    dispatch sys paths w argv outfile =
      match launch_command sys w paths argv outfile with
      | (none, w2, ev) => ⟨Ret.child, paths, w2, ev⟩
      | (some pid, w2, ev) =>
        if 0 < pid then ⟨Ret.returned 1 pid, paths, w2, ev⟩
        else ⟨Ret.returned (-1) (-1), paths, w2, ev⟩ := by
  unfold dispatch
  rw [hname]
  rw [if_neg (fun h => hb.1 (Option.some.inj h)), if_neg (fun h => hb.2.1 (Option.some.inj h)),
    if_neg (fun h => hb.2.2 (Option.some.inj h))]

theorem launch_command_of_resolve {W : Type} (sys : Sys W) (paths : List Str) (w : W)
    (argv : List Str) (outfile : Option Str) (name : Str) (hname : argv.head? = some name) :
    launch_command sys w paths argv outfile =
      match resolve_executable (sys.access w) paths name with
      | none => (some (-1), w, [Event.error])
      | some fullpath =>
        if (sys.fork w).1 < 0 then (some (-1), (sys.fork w).2, [Event.error])
        else if (sys.fork w).1 = 0 then
          (none, (sys.fork w).2, [Event.exec fullpath argv outfile])
        else (some (sys.fork w).1, (sys.fork w).2,
          [Event.launch (sys.fork w).1 fullpath argv outfile]) := by
  cases argv with
  | nil => simp at hname
  | cons a as =>
    simp only [List.head?_cons, Option.some.injEq] at hname
    subst hname
    rfl

theorem takeWhile_append_of_mem_neg {α : Type} (p : α → Bool) (x y : List α)
    (h : ∃ a ∈ x, p a = false) : (x ++ y).takeWhile p = x.takeWhile p := by
  induction x with
  | nil => simp at h
  | cons a x ih =>
    by_cases ha : p a = true
    · have h2 : ∃ b ∈ x, p b = false := by
        obtain ⟨b, hb, hpb⟩ := h
        rcases List.mem_cons.mp hb with rfl | hb
        · simp [ha] at hpb
        · exact ⟨b, hb, hpb⟩
      simp [List.takeWhile_cons, ha, ih h2]
    · simp [List.takeWhile_cons, ha]

theorem trim_lead (lead x : Str) (h : ∀ a ∈ lead, is_trim_space a = true) :
    trim (lead ++ x) = trim x := by
  unfold trim
  rw [List.dropWhile_append_of_pos h]

/-- Trimming the segment first does not change the trimmed text left of the marker. -/
theorem trim_before_char_trim (c : Str) :
    trim (before_char '>' (trim c)) = trim (before_char '>' c) := by
  obtain ⟨lead, trail, hl, ht, hc⟩ := trim_decomp c
  have hself : (trim c).rdropWhile is_trim_space = trim c := by
    rw [trim_eq]
    exact List.rdropWhile_idempotent _ _
  have e1 : before_char '>' c = lead ++ before_char '>' (trim c ++ trail) := by
    conv_lhs => rw [hc]
    unfold before_char
    rw [List.append_assoc, List.takeWhile_append_of_pos (ne_gt_of_all lead hl)]
  rw [e1, trim_lead _ _ hl]
  by_cases hmem : '>' ∈ trim c
  · have : before_char '>' (trim c ++ trail) = before_char '>' (trim c) := by
      unfold before_char
      exact takeWhile_append_of_mem_neg _ _ _ ⟨'>', hmem, by simp⟩
    rw [this]
  · have hall : ∀ a ∈ trim c, (a != '>') = true := by
      intro a ha
      have : a ≠ '>' := fun e => hmem (e ▸ ha)
      simpa using this
    have h1 : before_char '>' (trim c) = trim c := by
      unfold before_char
      exact List.takeWhile_eq_self_iff.mpr hall
    have h2 : before_char '>' (trim c ++ trail) = trim c ++ trail := by
      unfold before_char
      rw [List.takeWhile_append_of_pos hall,
        List.takeWhile_eq_self_iff.mpr (ne_gt_of_all trail ht)]
    rw [h1, h2, trim_append_of_all _ _ hself ht]

theorem before_char_of_count_zero (c : Str) (h : c.count '>' = 0) :
    before_char '>' c = c := by
  unfold before_char
  rw [List.takeWhile_eq_self_iff]
  intro a ha
  have hn : '>' ∉ c := List.count_eq_zero.mp h
  have : a ≠ '>' := fun e => hn (e ▸ ha)
  simpa using this

/-! ## C2: external launch -/

/-- C2 (amended): for every segment that parses successfully, whose first token is not
`exit`, `cd` or `path` and resolves to an executable path `P`: when process creation
succeeds (`fork` returns a positive pid) exactly one process is created, its program image
is `P`, its argument vector is what the tokenizer returns for the trimmed text left of the
marker (the trimmed segment when there is no marker), not altered by the resolution; its
redirection target is the single token of the trimmed text right of the marker when there
is one and absent otherwise; and the parent returns 1 with `out_pid` the pid obtained.
When `fork` fails (it returns a negative value) no process is created, the generic error
is emitted once and -1 is returned. -/
theorem C2_external_launch {W : Type} (sys : Sys W) (paths : List Str) (w : W) (c : Str)
    (argv : List Str) (outfile : Option Str) (name P : Str)
    (hparse : parse_stage c = Parsed.ok argv outfile)
    (hname : argv.head? = some name)
    (hb : name ≠ "exit".toList ∧ name ≠ "cd".toList ∧ name ≠ "path".toList)
    (hres : resolve_executable (sys.access w) paths name = some P) :
    (0 < (sys.fork w).1 →
      handle_single_command sys paths w c =
        ⟨Ret.returned 1 (sys.fork w).1, paths, (sys.fork w).2,
          [Event.launch (sys.fork w).1 P argv outfile]⟩) ∧
    ((sys.fork w).1 < 0 →
      handle_single_command sys paths w c =
        ⟨Ret.returned (-1) (-1), paths, (sys.fork w).2, [Event.error]⟩) ∧
    argv = tokenize_whitespace (trim (before_char '>' c)) ∧
    ((c.count '>' = 0 ∧ argv = tokenize_whitespace (trim c) ∧ outfile = none) ∨
      (c.count '>' = 1 ∧ ∃ f, tokenize_whitespace (trim (text_right_of '>' c)) = [f] ∧
        outfile = some f)) := by
  obtain ⟨_, _, hargv, hout⟩ := parse_ok_spec c argv outfile hparse
  rw [trim_before_char_trim] at hargv
  have hh : handle_single_command sys paths w c =
      match
        (if (sys.fork w).1 < 0 then (some (-1), (sys.fork w).2, [Event.error])
          else if (sys.fork w).1 = 0 then
            (none, (sys.fork w).2, [Event.exec P argv outfile])
          else (some (sys.fork w).1, (sys.fork w).2,
            [Event.launch (sys.fork w).1 P argv outfile]) : Option Int × W × List Event) with
      | (none, w2, ev) => ⟨Ret.child, paths, w2, ev⟩
      | (some pid, w2, ev) =>
        if 0 < pid then ⟨Ret.returned 1 pid, paths, w2, ev⟩
        else ⟨Ret.returned (-1) (-1), paths, w2, ev⟩ := by
    rw [handle_of_parse_ok sys paths w c argv outfile hparse,
      dispatch_external sys paths w argv outfile name hname hb,
      launch_command_of_resolve sys paths w argv outfile name hname, hres]
  refine ⟨?_, ?_, hargv, ?_⟩
  · intro hfork
    have h1 : ¬ (sys.fork w).1 < 0 := by omega
    have h2 : ¬ (sys.fork w).1 = 0 := by omega
    rw [hh]
    simp only [if_neg h1, if_neg h2, if_pos hfork]
  · intro hfail
    rw [hh]
    simp only [if_pos hfail]
    rfl
  · rcases hout with ⟨h0, ho⟩ | h1
    · refine Or.inl ⟨h0, ?_, ho⟩
      rw [hargv, before_char_of_count_zero c h0]
    · exact Or.inr h1

/-- Witness for C2: `ls -l > out` with `/bin/ls` executable and a working `fork`. -/
theorem C2_external_launch_witness :
    (handle_single_command (demoSys ["/bin/ls".toList]) init_default_path 0
        "ls -l > out".toList).events =
      [Event.launch 100 "/bin/ls".toList ["ls".toList, "-l".toList] (some "out".toList)] :=
  congrArg Step.events
    ((C2_external_launch (demoSys ["/bin/ls".toList]) init_default_path 0
      "ls -l > out".toList ["ls".toList, "-l".toList] (some "out".toList) "ls".toList
      "/bin/ls".toList (by decide) (by decide) (by decide) (by decide)).1 (by decide))

/-- C2 as written fails: when `fork` fails, the segment `ls` parses, is no built-in and
resolves to `/bin/ls`, yet no process is created and -1 is returned; and for the segment
`ls \r> f` the argument vector is `[ls]` while the tokenizer applied to the text left of
the marker as it stands returns two tokens. -/
theorem C2_counterexample :
    (parse_stage "ls".toList = Parsed.ok ["ls".toList] none ∧
      resolve_executable ((noForkSys ["/bin/ls".toList]).access 0) init_default_path
        "ls".toList = some "/bin/ls".toList ∧
      (handle_single_command (noForkSys ["/bin/ls".toList]) init_default_path 0
        "ls".toList).ret = Ret.returned (-1) (-1) ∧
      (handle_single_command (noForkSys ["/bin/ls".toList]) init_default_path 0
        "ls".toList).events = [Event.error]) ∧
    ((handle_single_command (demoSys ["/bin/ls".toList]) init_default_path 0
        "ls \r> f".toList).events =
        [Event.launch 100 "/bin/ls".toList ["ls".toList] (some "f".toList)] ∧
      tokenize_whitespace (before_char '>' "ls \r> f".toList) =
        ["ls".toList, "\r".toList]) := by
  decide

/-! ## C4: the `path` built-in -/

/-- C4: for every previous Search Path and every successfully parsed segment whose argument
vector is `path t1 ... tk`, handling the segment returns 0, emits nothing and leaves the
Search Path equal to `[t1, ..., tk]`, whatever it was before. -/
theorem C4_path_replaces_wholesale {W : Type} (sys : Sys W) (paths : List Str) (w : W)
    (c : Str) (ts : List Str) (outfile : Option Str)
    (hparse : parse_stage c = Parsed.ok ("path".toList :: ts) outfile) :
    handle_single_command sys paths w c = ⟨Ret.returned 0 (-1), ts, w, []⟩ := by
  rw [handle_of_parse_ok sys paths w c _ outfile hparse, dispatch_path]

/-- Witness for C4: `path /usr/bin /opt` replaces the default path. -/
theorem C4_path_replaces_wholesale_witness :
    (handle_single_command (demoSys []) init_default_path 0 "path /usr/bin /opt".toList).paths
      = ["/usr/bin".toList, "/opt".toList] :=
  congrArg Step.paths
    (C4_path_replaces_wholesale (demoSys []) init_default_path 0 "path /usr/bin /opt".toList
      ["/usr/bin".toList, "/opt".toList] none (by decide))

/-! ## Lemmas on `run_piece` -/

theorem run_piece_of_empty {W : Type} (sys : Sys W) (st : LineState W) (c : Str)
    (h : trim c = []) :
    run_piece sys st c = (Outcome.running, { st with error_in_line := true }) := by
  unfold run_piece
  simp [h]

theorem run_piece_of_returned {W : Type} (sys : Sys W) (st : LineState W) (c : Str)
    (rc pid : Int) (p2 : List Str) (w2 : W) (ev : List Event) (h : trim c ≠ [])
    (hh : handle_single_command sys st.paths st.world c = ⟨Ret.returned rc pid, p2, w2, ev⟩) :
    run_piece sys st c =
      (Outcome.running,
        { paths := p2, world := w2,
          pids := if 0 < pid then st.pids ++ [pid] else st.pids,
          error_in_line := st.error_in_line || rc == -1,
          trace := st.trace ++ ev }) := by
  have hlen : ¬ ((trim c).length = 0) := fun e => h (List.length_eq_zero.mp e)
  unfold run_piece
  simp only [if_neg hlen, handle_trim, hh]

theorem run_piece_of_exited {W : Type} (sys : Sys W) (st : LineState W) (c : Str)
    (status : Int) (p2 : List Str) (w2 : W) (ev : List Event) (h : trim c ≠ [])
    (hh : handle_single_command sys st.paths st.world c = ⟨Ret.exited status, p2, w2, ev⟩) :
    run_piece sys st c =
      (Outcome.exited status,
        { st with paths := p2, world := w2, trace := st.trace ++ ev }) := by
  have hlen : ¬ ((trim c).length = 0) := fun e => h (List.length_eq_zero.mp e)
  unfold run_piece
  simp only [if_neg hlen, handle_trim, hh]

/-! ## C8: built-in misuse -/

/-- C8: a successfully parsed segment whose first token is `exit` with an argument vector
of length other than 1, or whose first token is `cd` with an argument vector of length
other than 2, emits the generic error once and returns -1 without terminating the
interpreter and without calling `chdir` (the only event is the error; Search Path and world
are unchanged), and the segmentation loop goes on after it. -/
theorem C8_builtin_misuse {W : Type} (sys : Sys W) (c : Str) (argv : List Str)
    (outfile : Option Str) (hparse : parse_stage c = Parsed.ok argv outfile)
    (hmis : (argv.head? = some "exit".toList ∧ argv.length ≠ 1) ∨
      (argv.head? = some "cd".toList ∧ argv.length ≠ 2)) :
    (∀ (paths : List Str) (w : W), handle_single_command sys paths w c =
      ⟨Ret.returned (-1) (-1), paths, w, [Event.error]⟩) ∧
    (∀ st : LineState W, run_piece sys st c =
      (Outcome.running,
        { st with error_in_line := true, trace := st.trace ++ [Event.error] })) := by
  have hh : ∀ (paths : List Str) (w : W), handle_single_command sys paths w c =
      ⟨Ret.returned (-1) (-1), paths, w, [Event.error]⟩ := by
    intro paths w
    rw [handle_of_parse_ok sys paths w c argv outfile hparse]
    rcases hmis with ⟨h1, h2⟩ | ⟨h1, h2⟩
    · exact dispatch_exit_misuse sys paths w argv outfile h1 h2
    · exact dispatch_cd_misuse sys paths w argv outfile h1 h2
  refine ⟨hh, ?_⟩
  intro st
  rw [run_piece_of_returned sys st c (-1) (-1) st.paths st.world [Event.error]
    (trim_ne_nil_of_parse_ok c argv outfile hparse) (hh st.paths st.world)]
  simp

/-- Witness for C8: `exit extra`. -/
theorem C8_builtin_misuse_witness :
    (handle_single_command (demoSys []) init_default_path 0 "exit extra".toList).ret =
      Ret.returned (-1) (-1) :=
  congrArg Step.ret
    ((C8_builtin_misuse (demoSys []) "exit extra".toList ["exit".toList, "extra".toList] none
      (by decide) (Or.inl ⟨by decide, by decide⟩)).1 init_default_path 0)

/-! ## C9: the empty Search Path -/

theorem resolve_executable_nil (access : Str → Bool) (name : Str) :
    resolve_executable access [] name = none := rfl

/-- With an empty Search Path, every segment other than `path` with arguments leaves the
Search Path empty. -/
theorem handle_keeps_empty_path {W : Type} (sys : Sys W) (w : W) (c : Str)
    (hc : ∀ argv outfile, parse_stage c = Parsed.ok argv outfile →
      ¬ (argv.head? = some "path".toList ∧ 2 ≤ argv.length)) :
    (handle_single_command sys [] w c).paths = [] := by
  cases hp : parse_stage c with
  | fail b => rw [handle_of_parse_fail sys [] w c b hp]
  | ok argv outfile =>
    rw [handle_of_parse_ok sys [] w c argv outfile hp]
    have hnp := hc argv outfile hp
    unfold dispatch
    split
    · split <;> rfl
    · split
      · split
        · split <;> rfl
        · rfl
      · split
        · rename_i hpath
          cases argv with
          | nil => rfl
          | cons a as =>
            cases as with
            | nil => rfl
            | cons b bs => exact absurd ⟨hpath, by simp⟩ hnp
        · split
          · rfl
          · split <;> rfl

/-! ## The segmentation loop visits the pieces of the line in order -/

theorem strchr_amp_of_free (p : Str) (h : '&' ∉ p) : strchr p '&' = none :=
  (strchr_eq_none_iff p '&').mpr h

theorem ne_amp_of_free (p : Str) (h : '&' ∉ p) : ∀ a ∈ p, (a != '&') = true := by
  intro a ha
  have : a ≠ '&' := fun e => h (e ▸ ha)
  simpa using this

theorem strchr_amp_append (p rest : Str) (h : '&' ∉ p) :
    strchr (p ++ '&' :: rest) '&' = some ('&' :: rest) := by
  unfold strchr
  rw [List.dropWhile_append_of_pos (ne_amp_of_free p h)]
  simp [List.dropWhile_cons]

theorem before_char_amp_append (p rest : Str) (h : '&' ∉ p) :
    before_char '&' (p ++ '&' :: rest) = p := by
  unfold before_char
  rw [List.takeWhile_append_of_pos (ne_amp_of_free p h)]
  simp [List.takeWhile_cons]

theorem run_pieces_single {W : Type} (sys : Sys W) (p : Str) (st : LineState W) :
    run_pieces sys [p] st = run_piece sys st p := by
  unfold run_pieces
  rcases hr : run_piece sys st p with ⟨o, st2⟩
  cases o <;> simp [run_pieces]

/-- With enough fuel the segmentation loop handles exactly the pieces between the
separators, in order. -/
theorem segment_loop_eq_run_pieces {W : Type} (sys : Sys W) (ps : List Str)
    (hne : ps ≠ []) (hfree : ∀ p ∈ ps, '&' ∉ p) (fuel : Nat) (st : LineState W)
    (hfuel : (join_amp ps).length < fuel) :
    segment_loop sys fuel (join_amp ps) st = run_pieces sys ps st := by
  induction ps generalizing fuel st with
  | nil => exact absurd rfl hne
  | cons p qs ih =>
    cases fuel with
    | zero => exact absurd hfuel (Nat.not_lt_zero _)
    | succ n =>
      have hp : '&' ∉ p := hfree p (List.mem_cons_self _ _)
      cases qs with
      | nil =>
        rw [run_pieces_single]
        unfold segment_loop
        simp only [join_amp, strchr_amp_of_free p hp]
      | cons q qs =>
        have hlen : (join_amp (q :: qs)).length < n := by
          simp only [join_amp, List.length_append, List.length_cons] at hfuel
          omega
        have ih2 := fun st2 => ih (by simp) (fun x hx => hfree x (List.mem_cons_of_mem _ hx))
          n st2 hlen
        unfold segment_loop
        simp only [join_amp, strchr_amp_append p _ hp, before_char_amp_append p _ hp,
          List.tail_cons]
        conv_rhs => unfold run_pieces
        rcases hr : run_piece sys st p with ⟨o, st2⟩
        cases o
        · simp only [ih2]
        · rfl
        · rfl

/-- Every text is a sequence of pieces without `&`, joined by `&`. -/
theorem exists_pieces (s : Str) :
    ∃ ps, ps ≠ [] ∧ (∀ p ∈ ps, '&' ∉ p) ∧ join_amp ps = s := by
  induction s with
  | nil => exact ⟨[[]], by simp, by simp, rfl⟩
  | cons c cs ih =>
    obtain ⟨ps, hne, hfree, hj⟩ := ih
    cases ps with
    | nil => exact absurd rfl hne
    | cons p rest =>
      by_cases hc : c = '&'
      · refine ⟨[] :: p :: rest, by simp, ?_, ?_⟩
        · intro x hx
          rcases List.mem_cons.mp hx with rfl | hx
          · simp
          · exact hfree x hx
        · simp only [join_amp, List.nil_append, hj, hc]
      · refine ⟨(c :: p) :: rest, by simp, ?_, ?_⟩
        · intro x hx
          rcases List.mem_cons.mp hx with rfl | hx
          · intro hmem
            rcases List.mem_cons.mp hmem with e | hmem
            · exact hc e.symm
            · exact hfree p (List.mem_cons_self _ _) hmem
          · exact hfree x (List.mem_cons_of_mem _ hx)
        · cases rest with
          | nil =>
            simp only [join_amp] at hj ⊢
            rw [hj]
          | cons q qs =>
            simp only [join_amp, List.cons_append] at hj ⊢
            rw [hj]

/-- A line whose trimmed text is not empty: the pieces are handled in order, then the
recorded handles are waited for. -/
theorem process_line_eq {W : Type} (sys : Sys W) (paths : List Str) (w : W) (line : Str)
    (ps : List Str) (hfree : ∀ p ∈ ps, '&' ∉ p)
    (hline : trim (strip_newline line) = join_amp ps)
    (hne : trim (strip_newline line) ≠ []) :
    process_line sys paths w line =
      finish_line sys (run_pieces sys ps ⟨paths, w, [], false, []⟩) := by
  have hps : ps ≠ [] := by
    intro e
    rw [e] at hline
    exact hne hline
  have hlen : ¬ ((join_amp ps).length = 0) := by
    rw [← hline]
    exact fun e => hne (List.length_eq_zero.mp e)
  unfold process_line
  simp only [hline, if_neg hlen]
  rw [segment_loop_eq_run_pieces sys ps hps hfree _ _ (Nat.lt_succ_self _)]
  unfold finish_line
  rcases run_pieces sys ps ⟨paths, w, [], false, []⟩ with ⟨o, st⟩
  cases o <;> rfl

theorem process_line_blank {W : Type} (sys : Sys W) (paths : List Str) (w : W) (line : Str)
    (h : trim (strip_newline line) = []) :
    process_line sys paths w line = (Outcome.running, ⟨paths, w, [], false, []⟩) := by
  unfold process_line
  simp [h]

/-! ## What one segment can do -/

theorem launch_command_shape {W : Type} (sys : Sys W) (w : W) (paths : List Str)
    (argv : List Str) (outfile : Option Str) :
    (∃ w2 f, launch_command sys w paths argv outfile =
        (none, w2, [Event.exec f argv outfile])) ∨
    (∃ w2, launch_command sys w paths argv outfile = (some (-1), w2, [])) ∨
    (∃ w2, launch_command sys w paths argv outfile = (some (-1), w2, [Event.error])) ∨
    (∃ w2 pid f, 0 < pid ∧ launch_command sys w paths argv outfile =
        (some pid, w2, [Event.launch pid f argv outfile])) := by
  unfold launch_command
  split
  · exact Or.inr (Or.inl ⟨w, rfl⟩)
  · split
    · exact Or.inr (Or.inr (Or.inl ⟨w, rfl⟩))
    · rename_i fullpath _
      dsimp only
      split
      · exact Or.inr (Or.inr (Or.inl ⟨_, rfl⟩))
      · split
        · exact Or.inl ⟨_, _, rfl⟩
        · rename_i h1 h2
          exact Or.inr (Or.inr (Or.inr ⟨_, (sys.fork w).1, fullpath, by omega, rfl⟩))

/-- The events of one segment are segment events, and when the segment returns, the pids
created are `[out_pid]` if `out_pid > 0` and none otherwise. -/
theorem handle_shape {W : Type} (sys : Sys W) (paths : List Str) (w : W) (c : Str) :
    (∀ e ∈ (handle_single_command sys paths w c).events, is_segment_event e = true) ∧
    (∀ rc pid, (handle_single_command sys paths w c).ret = Ret.returned rc pid →
      launched_pids (handle_single_command sys paths w c).events =
        if 0 < pid then [pid] else []) := by
  unfold handle_single_command
  split
  · rename_i b _
    cases b
    · refine ⟨by simp, ?_⟩
      intro rc pid h
      injection h with h1 h2
      subst h2
      rfl
    · refine ⟨by simp [is_segment_event], ?_⟩
      intro rc pid h
      injection h with h1 h2
      subst h2
      rfl
  · rename_i argv outfile _
    unfold dispatch
    split
    · split
      · refine ⟨by simp [is_segment_event], ?_⟩
        intro rc pid h
        injection h with h1 h2
        subst h2
        rfl
      · exact ⟨by simp, fun rc pid h => Ret.noConfusion h⟩
    · split
      · split
        · split
          · refine ⟨by simp [is_segment_event], ?_⟩
            intro rc pid h
            injection h with h1 h2
            subst h2
            rfl
          · refine ⟨by simp [is_segment_event], ?_⟩
            intro rc pid h
            injection h with h1 h2
            subst h2
            rfl
        · refine ⟨by simp [is_segment_event], ?_⟩
          intro rc pid h
          injection h with h1 h2
          subst h2
          rfl
      · split
        · refine ⟨by simp, ?_⟩
          intro rc pid h
          injection h with h1 h2
          subst h2
          rfl
        · rcases launch_command_shape sys w paths argv outfile with
            ⟨w2, f, hl⟩ | ⟨w2, hl⟩ | ⟨w2, hl⟩ | ⟨w2, pid0, f, hpos, hl⟩
          · rw [hl]
            exact ⟨by simp [is_segment_event], fun rc pid h => Ret.noConfusion h⟩
          · rw [hl]
            refine ⟨by simp, ?_⟩
            intro rc pid h
            simp only [show ¬ ((0 : Int) < -1) by decide, if_false] at h
            injection h with h1 h2
            subst h2
            rfl
          · rw [hl]
            refine ⟨by simp [is_segment_event], ?_⟩
            intro rc pid h
            simp only [show ¬ ((0 : Int) < -1) by decide, if_false] at h
            injection h with h1 h2
            subst h2
            rfl
          · rw [hl]
            simp only [if_pos hpos]
            refine ⟨by simp [is_segment_event], ?_⟩
            intro rc pid h
            injection h with h1 h2
            subst h2
            simp [launched_pids, hpos]

/-! ## Traces of a line -/

theorem launched_pids_append (a b : List Event) :
    launched_pids (a ++ b) = launched_pids a ++ launched_pids b := by
  induction a with
  | nil => rfl
  | cons e es ih => cases e <;> simp [launched_pids, ih]

theorem launched_pids_waits (pids : List Int) : launched_pids (pids.map Event.wait) = [] := by
  induction pids with
  | nil => rfl
  | cons p ps ih => simpa [launched_pids] using ih

/-- One piece appends segment events to the trace and, while the interpreter keeps
running, records exactly the pids it created. -/
theorem run_piece_trace {W : Type} (sys : Sys W) (st : LineState W) (c : Str) :
    ∃ ev, (run_piece sys st c).2.trace = st.trace ++ ev ∧
      (∀ e ∈ ev, is_segment_event e = true) ∧
      ((run_piece sys st c).1 = Outcome.running →
        (run_piece sys st c).2.pids = st.pids ++ launched_pids ev) := by
  by_cases hnil : trim c = []
  · rw [run_piece_of_empty sys st c hnil]
    exact ⟨[], by simp, by simp, by simp [launched_pids]⟩
  · have hlen : ¬ ((trim c).length = 0) := fun e => hnil (List.length_eq_zero.mp e)
    obtain ⟨hseg, hpid⟩ := handle_shape sys st.paths st.world (trim c)
    refine ⟨(handle_single_command sys st.paths st.world (trim c)).events, ?_, hseg, ?_⟩
    · unfold run_piece
      simp only [if_neg hlen]
      split <;> rfl
    · unfold run_piece
      simp only [if_neg hlen]
      split
      · rename_i rc pid hret
        intro _
        rw [hpid rc pid hret]
        by_cases hp : 0 < pid <;> simp [hp]
      · intro h
        exact Outcome.noConfusion h
      · intro h
        exact Outcome.noConfusion h

theorem run_pieces_trace {W : Type} (sys : Sys W) (ps : List Str) (st : LineState W) :
    ∃ ev, (run_pieces sys ps st).2.trace = st.trace ++ ev ∧
      (∀ e ∈ ev, is_segment_event e = true) ∧
      ((run_pieces sys ps st).1 = Outcome.running →
        (run_pieces sys ps st).2.pids = st.pids ++ launched_pids ev) := by
  induction ps generalizing st with
  | nil => exact ⟨[], by simp [run_pieces], by simp, by simp [run_pieces, launched_pids]⟩
  | cons p ps ih =>
    obtain ⟨ev1, ht1, hs1, hp1⟩ := run_piece_trace sys st p
    unfold run_pieces
    rcases hr : run_piece sys st p with ⟨o, st2⟩
    rw [hr] at ht1 hp1
    cases o with
    | running =>
      obtain ⟨ev2, ht2, hs2, hp2⟩ := ih st2
      refine ⟨ev1 ++ ev2, ?_, ?_, ?_⟩
      · simp only [ht2]
        simp only at ht1
        rw [ht1, List.append_assoc]
      · intro e he
        rcases List.mem_append.mp he with h | h
        · exact hs1 e h
        · exact hs2 e h
      · intro hrun
        simp only at hrun hp1 ⊢
        rw [hp2 hrun, hp1 trivial, launched_pids_append, List.append_assoc]
    | exited status =>
      exact ⟨ev1, ht1, hs1, fun h => Outcome.noConfusion h⟩
    | child =>
      exact ⟨ev1, ht1, hs1, fun h => Outcome.noConfusion h⟩

theorem run_pieces_append {W : Type} (sys : Sys W) (ps qs : List Str) (st : LineState W) :
    run_pieces sys (ps ++ qs) st =
      match run_pieces sys ps st with
      | (Outcome.running, st1) => run_pieces sys qs st1
      | r => r := by
  induction ps generalizing st with
  | nil => rfl
  | cons p ps ih =>
    have e1 : run_pieces sys (p :: ps ++ qs) st =
        match run_piece sys st p with
        | (Outcome.running, st2) => run_pieces sys (ps ++ qs) st2
        | r => r := by
      simp only [List.cons_append]
      rw [run_pieces]
    have e2 : run_pieces sys (p :: ps) st =
        match run_piece sys st p with
        | (Outcome.running, st2) => run_pieces sys ps st2
        | r => r := by
      rw [run_pieces]
    rw [e1, e2]
    rcases hr : run_piece sys st p with ⟨o, st2⟩
    cases o with
    | running => exact ih st2
    | exited status => rfl
    | child => rfl

theorem join_amp_ne_nil_of_mem (ps : List Str) (p : Str) (hp : p ∈ ps) (hne : p ≠ []) :
    join_amp ps ≠ [] := by
  cases ps with
  | nil => simp at hp
  | cons a rest =>
    cases rest with
    | nil =>
      simp only [List.mem_singleton] at hp
      subst hp
      exact hne
    | cons b bs => simp [join_amp]

theorem join_amp_eq_nil (ps : List Str) (h : join_amp ps = []) : ps = [] ∨ ps = [[]] := by
  cases ps with
  | nil => exact Or.inl rfl
  | cons a rest =>
    cases rest with
    | nil =>
      simp only [join_amp] at h
      exact Or.inr (by rw [h])
    | cons b bs => simp [join_amp] at h

/-! ## C7: `exit` -/

/-- C7: when the segmentation loop reaches a segment whose argument vector is exactly
`exit`, the interpreter terminates there with status 0: the state and the trace are those
reached before the segment, whatever follows it on the line, the trace of the line holds
no wait, and nothing is read after it. -/
theorem C7_exit_terminates_immediately {W : Type} (sys : Sys W) (interactive : Bool)
    (paths : List Str) (w : W) (line : Str) (rest : List Str) (pre : List Str) (s : Str)
    (post : List Str) (outfile : Option Str) (st1 : LineState W)
    (hfree : ∀ p ∈ pre ++ s :: post, '&' ∉ p)
    (hline : trim (strip_newline line) = join_amp (pre ++ s :: post))
    (hreach : run_pieces sys pre ⟨paths, w, [], false, []⟩ = (Outcome.running, st1))
    (hexit : parse_stage s = Parsed.ok ["exit".toList] outfile) :
    process_line sys paths w line = (Outcome.exited 0, st1) ∧
    (∀ e ∈ st1.trace, is_segment_event e = true) ∧
    main_loop sys interactive (line :: rest) paths w =
      ⟨Outcome.exited 0, st1.paths, st1.world,
        (if interactive then [Event.prompt] else []) ++ [Event.read_line] ++ st1.trace⟩ := by
  have hs : trim s ≠ [] := trim_ne_nil_of_parse_ok s _ outfile hexit
  have hsne : s ≠ [] := by
    intro e
    rw [e] at hs
    exact hs rfl
  have hne : trim (strip_newline line) ≠ [] := by
    rw [hline]
    exact join_amp_ne_nil_of_mem _ s (by simp) hsne
  have hpiece : run_piece sys st1 s = (Outcome.exited 0, st1) := by
    rw [run_piece_of_exited sys st1 s 0 st1.paths st1.world [] hs
      (by rw [handle_of_parse_ok sys _ _ s _ outfile hexit, dispatch_exit])]
    simp
  have hrun : run_pieces sys (pre ++ s :: post) ⟨paths, w, [], false, []⟩ =
      (Outcome.exited 0, st1) := by
    rw [run_pieces_append, hreach]
    simp only
    rw [run_pieces, hpiece]
  have hproc : process_line sys paths w line = (Outcome.exited 0, st1) := by
    rw [process_line_eq sys paths w line _ hfree hline hne, hrun]
    rfl
  refine ⟨hproc, ?_, ?_⟩
  · obtain ⟨ev, ht, hseg, _⟩ := run_pieces_trace sys pre ⟨paths, w, [], false, []⟩
    rw [hreach] at ht
    simp only [List.nil_append] at ht
    rw [ht]
    exact hseg
  · unfold main_loop
    simp only [hproc]

/-- Witness for C7: on `ls & exit & ls` the second `ls` is never launched and the first is
not waited for. -/
theorem C7_exit_terminates_immediately_witness :
    (main_loop (demoSys ["/bin/ls".toList]) false ["ls & exit & ls\n".toList, "ls\n".toList]
      init_default_path 0).trace =
      [Event.read_line, Event.launch 100 "/bin/ls".toList ["ls".toList] none] :=
  congrArg Final.trace
    (C7_exit_terminates_immediately (demoSys ["/bin/ls".toList]) false init_default_path 0
      "ls & exit & ls\n".toList ["ls\n".toList] ["ls ".toList] " exit ".toList [" ls".toList]
      none ⟨init_default_path, 1, [100], false,
        [Event.launch 100 "/bin/ls".toList ["ls".toList] none]⟩
      (by decide) (by decide) rfl (by decide)).2.2

/-! ## C10: empty pieces -/

/-- C10 (code at the failing input): on the line `ls & & ls` the middle piece is empty, yet
the trace of the line holds no error message: only the two launches and their waits. The
same holds for the line `&`, whose two pieces are both empty and whose trace is empty. -/
theorem C10_empty_piece_is_silent :
    (process_line (demoSys ["/bin/ls".toList]) init_default_path 0
        "ls & & ls\n".toList).2.trace =
      [Event.launch 100 "/bin/ls".toList ["ls".toList] none,
       Event.launch 101 "/bin/ls".toList ["ls".toList] none,
       Event.wait 100, Event.wait 101] ∧
    (process_line (demoSys ["/bin/ls".toList]) init_default_path 0 "&\n".toList).2.trace = [] ∧
    trim (strip_newline "&\n".toList) ≠ [] := by
  decide

/-! ## C5: failures are local -/

theorem launches_of_append (a b : List Event) :
    launches_of (a ++ b) = launches_of a ++ launches_of b := by
  induction a with
  | nil => rfl
  | cons e es ih => cases e <;> simp [launches_of, ih]

theorem launches_of_waits (pids : List Int) : launches_of (pids.map Event.wait) = [] := by
  induction pids with
  | nil => rfl
  | cons p ps ih => simpa [launches_of] using ih

theorem same_effects_refl {W : Type} (r : Outcome × LineState W) : same_effects r r :=
  ⟨rfl, rfl, rfl, rfl, rfl⟩

theorem same_effects_symm {W : Type} {r1 r2 : Outcome × LineState W}
    (h : same_effects r1 r2) : same_effects r2 r1 :=
  ⟨h.1.symm, h.2.1.symm, h.2.2.1.symm, h.2.2.2.1.symm, h.2.2.2.2.symm⟩

theorem same_effects_trans {W : Type} {r1 r2 r3 : Outcome × LineState W}
    (h : same_effects r1 r2) (g : same_effects r2 r3) : same_effects r1 r3 :=
  ⟨h.1.trans g.1, h.2.1.trans g.2.1, h.2.2.1.trans g.2.2.1, h.2.2.2.1.trans g.2.2.2.1,
    h.2.2.2.2.trans g.2.2.2.2⟩

/-- A segment that fails locally returns -1 with the Search Path and the world unchanged
and creates no process. -/
theorem fails_locally_handle {W : Type} (sys : Sys W) (paths : List Str) (w : W) (s : Str)
    (h : fails_locally sys paths w s) :
    ∃ ev, handle_single_command sys paths w s = ⟨Ret.returned (-1) (-1), paths, w, ev⟩ ∧
      launches_of ev = [] := by
  rcases h with ⟨b, hb⟩ | ⟨argv, outfile, hp, hcase⟩
  · refine ⟨_, handle_of_parse_fail sys paths w s b hb, ?_⟩
    cases b <;> rfl
  · rw [handle_of_parse_ok sys paths w s argv outfile hp]
    rcases hcase with ⟨h1, h2⟩ | ⟨h1, h2⟩ | ⟨dir, h1, h2⟩ | ⟨name, h1, h2, h3, h4, h5⟩
    · exact ⟨_, dispatch_exit_misuse sys paths w argv outfile h1 h2, rfl⟩
    · exact ⟨_, dispatch_cd_misuse sys paths w argv outfile h1 h2, rfl⟩
    · subst h1
      refine ⟨[Event.chdir dir false, Event.error], ?_, rfl⟩
      unfold dispatch
      have hn : ¬ (["cd".toList, dir].head? = some "exit".toList) := by
        rw [List.head?_cons]
        decide
      rw [if_neg hn, if_pos (by rfl)]
      simp only [h2]
    · refine ⟨[Event.error], ?_, rfl⟩
      rw [dispatch_external sys paths w argv outfile name h1 ⟨h2, h3, h4⟩,
        launch_command_of_resolve sys paths w argv outfile name h1, h5]
      rfl

theorem fails_locally_run_piece {W : Type} (sys : Sys W) (st : LineState W) (s : Str)
    (h : fails_locally sys st.paths st.world s) :
    ∃ ev, run_piece sys st s =
        (Outcome.running, { st with error_in_line := true, trace := st.trace ++ ev }) ∧
      launches_of ev = [] := by
  by_cases hnil : trim s = []
  · refine ⟨[], ?_, rfl⟩
    rw [run_piece_of_empty sys st s hnil, List.append_nil]
  · obtain ⟨ev, hh, hl⟩ := fails_locally_handle sys st.paths st.world s h
    refine ⟨ev, ?_, hl⟩
    rw [run_piece_of_returned sys st s (-1) (-1) st.paths st.world ev hnil hh]
    simp

theorem run_piece_of_child {W : Type} (sys : Sys W) (st : LineState W) (c : Str)
    (p2 : List Str) (w2 : W) (ev : List Event) (h : trim c ≠ [])
    (hh : handle_single_command sys st.paths st.world c = ⟨Ret.child, p2, w2, ev⟩) :
    run_piece sys st c =
      (Outcome.child, { st with paths := p2, world := w2, trace := st.trace ++ ev }) := by
  have hlen : ¬ ((trim c).length = 0) := fun e => h (List.length_eq_zero.mp e)
  unfold run_piece
  simp only [if_neg hlen, handle_trim, hh]

theorem run_piece_same {W : Type} (sys : Sys W) (s1 s2 : LineState W) (p : Str)
    (h : same_state s1 s2) : same_effects (run_piece sys s1 p) (run_piece sys s2 p) := by
  obtain ⟨hp, hw, hpid, htr⟩ := h
  by_cases hnil : trim p = []
  · rw [run_piece_of_empty sys s1 p hnil, run_piece_of_empty sys s2 p hnil]
    exact ⟨rfl, hp, hw, hpid, htr⟩
  · rcases hr : handle_single_command sys s2.paths s2.world p with ⟨ret, p2, w2, ev⟩
    have hr1 : handle_single_command sys s1.paths s1.world p = ⟨ret, p2, w2, ev⟩ := by
      rw [hp, hw, hr]
    cases ret with
    | returned rc pid =>
      rw [run_piece_of_returned sys s1 p rc pid p2 w2 ev hnil hr1,
        run_piece_of_returned sys s2 p rc pid p2 w2 ev hnil hr]
      refine ⟨rfl, rfl, rfl, ?_, ?_⟩
      · simp only [hpid]
      · simp only [launches_of_append, htr]
    | exited status =>
      rw [run_piece_of_exited sys s1 p status p2 w2 ev hnil hr1,
        run_piece_of_exited sys s2 p status p2 w2 ev hnil hr]
      refine ⟨rfl, rfl, rfl, hpid, ?_⟩
      simp only [launches_of_append, htr]
    | child =>
      rw [run_piece_of_child sys s1 p p2 w2 ev hnil hr1,
        run_piece_of_child sys s2 p p2 w2 ev hnil hr]
      refine ⟨rfl, rfl, rfl, hpid, ?_⟩
      simp only [launches_of_append, htr]

theorem run_pieces_same {W : Type} (sys : Sys W) (ps : List Str) (s1 s2 : LineState W)
    (h : same_state s1 s2) : same_effects (run_pieces sys ps s1) (run_pieces sys ps s2) := by
  induction ps generalizing s1 s2 with
  | nil => exact ⟨rfl, h⟩
  | cons p ps ih =>
    have hpiece := run_piece_same sys s1 s2 p h
    rw [run_pieces, run_pieces]
    rcases h1 : run_piece sys s1 p with ⟨o1, t1⟩
    rcases h2 : run_piece sys s2 p with ⟨o2, t2⟩
    rw [h1, h2] at hpiece
    obtain ⟨ho, hst⟩ := hpiece
    simp only at ho hst
    subst ho
    cases o1 with
    | running => exact ih t1 t2 hst
    | exited status => exact ⟨rfl, hst⟩
    | child => exact ⟨rfl, hst⟩

theorem finish_line_same {W : Type} (sys : Sys W) (r1 r2 : Outcome × LineState W)
    (h : same_effects r1 r2) : same_effects (finish_line sys r1) (finish_line sys r2) := by
  rcases r1 with ⟨o1, t1⟩
  rcases r2 with ⟨o2, t2⟩
  obtain ⟨ho, hp, hw, hpid, htr⟩ := h
  simp only at ho hp hw hpid htr
  subst ho
  cases o1 with
  | running =>
    refine ⟨rfl, hp, ?_, hpid, ?_⟩
    · simp only [finish_line, hpid, hw]
    · simp only [finish_line, launches_of_append, htr, launches_of_waits]
  | exited status => exact ⟨rfl, hp, hw, hpid, htr⟩
  | child => exact ⟨rfl, hp, hw, hpid, htr⟩

theorem run_piece_congr_trim {W : Type} (sys : Sys W) (st : LineState W) (p q : Str)
    (h : trim p = trim q) : run_piece sys st p = run_piece sys st q := by
  unfold run_piece
  rw [h]

theorem run_pieces_congr_trim {W : Type} (sys : Sys W) (ps qs : List Str) (st : LineState W)
    (h : ps.map trim = qs.map trim) : run_pieces sys ps st = run_pieces sys qs st := by
  induction ps generalizing qs st with
  | nil =>
    cases qs with
    | nil => rfl
    | cons q qs => simp at h
  | cons p ps ih =>
    cases qs with
    | nil => simp at h
    | cons q qs =>
      simp only [List.map_cons, List.cons.injEq] at h
      rw [run_pieces, run_pieces, run_piece_congr_trim sys st p q h.1]
      rcases run_piece sys st q with ⟨o, st2⟩
      cases o with
      | running => exact ih qs st2 h.2
      | exited status => rfl
      | child => rfl

/-- Processing a line has the effects of handling its pieces in order and then waiting,
also when the line is blank. -/
theorem process_line_same {W : Type} (sys : Sys W) (paths : List Str) (w : W) (line : Str)
    (ps : List Str) (hfree : ∀ p ∈ ps, '&' ∉ p)
    (hline : trim (strip_newline line) = join_amp ps) :
    same_effects (process_line sys paths w line)
      (finish_line sys (run_pieces sys ps ⟨paths, w, [], false, []⟩)) := by
  by_cases hne : trim (strip_newline line) = []
  · rw [process_line_blank sys paths w line hne]
    rw [hne] at hline
    rcases join_amp_eq_nil ps hline.symm with e | e
    · subst e
      exact ⟨rfl, rfl, rfl, rfl, rfl⟩
    · subst e
      rw [run_pieces_single, run_piece_of_empty sys _ [] rfl]
      exact ⟨rfl, rfl, rfl, rfl, rfl⟩
  · rw [process_line_eq sys paths w line ps hfree hline hne]
    exact same_effects_refl _

/-! ## Fuel of the tokenizer -/

theorem length_dropWhile_not_sep_lt (c : Char) (cs : Str) (h : is_token_sep c = false) :
    ((c :: cs).dropWhile (fun x => !is_token_sep x)).length < (c :: cs).length := by
  have h1 : (c :: cs).dropWhile (fun x => !is_token_sep x) =
      cs.dropWhile (fun x => !is_token_sep x) := by
    simp [List.dropWhile_cons, h]
  rw [h1, List.length_cons]
  exact Nat.lt_succ_of_le (List.dropWhile_suffix _).length_le

/-- The loop of the tokenizer never runs out of fuel: any amount of fuel of at least the
length of the remaining text gives the same tokens. -/
theorem tokenize_loop_fuel (f1 f2 : Nat) (p : Str) (argv : List Str)
    (h1 : p.length ≤ f1) (h2 : p.length ≤ f2) :
    tokenize_loop f1 p argv = tokenize_loop f2 p argv := by
  induction f1 generalizing f2 p argv with
  | zero =>
    have hp : p = [] := List.length_eq_zero.mp (Nat.le_zero.mp h1)
    subst hp
    cases f2 <;> simp [tokenize_loop]
  | succ n ih =>
    cases f2 with
    | zero =>
      have hp : p = [] := List.length_eq_zero.mp (Nat.le_zero.mp h2)
      subst hp
      simp [tokenize_loop]
    | succ m =>
      rw [tokenize_loop, tokenize_loop]
      cases hd : p.dropWhile is_token_sep with
      | nil => rfl
      | cons c cs =>
        have hc : is_token_sep c = false := by
          have := List.head_dropWhile_not is_token_sep p (by simp [hd])
          simpa [hd] using this
        have hlt := length_dropWhile_not_sep_lt c cs hc
        have hle : (c :: cs).length ≤ p.length := by
          rw [← hd]
          exact (List.dropWhile_suffix _).length_le
        simp only
        split
        · rfl
        · exact ih m _ _ (by omega) (by omega)

/-! ## C9: the empty Search Path -/

theorem run_piece_keeps_empty_path {W : Type} (sys : Sys W) (st : LineState W) (p : Str)
    (hst : st.paths = [])
    (hp : ∀ argv outfile, parse_stage p = Parsed.ok argv outfile →
      ¬ (argv.head? = some "path".toList ∧ 2 ≤ argv.length)) :
    (run_piece sys st p).2.paths = [] := by
  by_cases hnil : trim p = []
  · rw [run_piece_of_empty sys st p hnil]
    exact hst
  · have hk := handle_keeps_empty_path sys st.world p hp
    rw [← hst] at hk
    rcases hr : handle_single_command sys st.paths st.world p with ⟨ret, p2, w2, ev⟩
    rw [hr] at hk
    simp only at hk
    subst hk
    cases ret with
    | returned rc pid =>
      rw [run_piece_of_returned sys st p rc pid _ w2 ev hnil hr]
      exact hst
    | exited status =>
      rw [run_piece_of_exited sys st p status _ w2 ev hnil hr]
      exact hst
    | child =>
      rw [run_piece_of_child sys st p _ w2 ev hnil hr]
      exact hst

theorem run_pieces_keeps_empty_path {W : Type} (sys : Sys W) (ps : List Str)
    (st : LineState W) (hst : st.paths = [])
    (hp : ∀ p ∈ ps, ∀ argv outfile, parse_stage p = Parsed.ok argv outfile →
      ¬ (argv.head? = some "path".toList ∧ 2 ≤ argv.length)) :
    (run_pieces sys ps st).2.paths = [] := by
  induction ps generalizing st with
  | nil => exact hst
  | cons p ps ih =>
    have h1 := run_piece_keeps_empty_path sys st p hst (hp p (List.mem_cons_self _ _))
    rw [run_pieces]
    rcases hr : run_piece sys st p with ⟨o, st2⟩
    rw [hr] at h1
    cases o with
    | running => exact ih st2 h1 (fun q hq => hp q (List.mem_cons_of_mem _ hq))
    | exited status => exact h1
    | child => exact h1

theorem finish_line_paths {W : Type} (sys : Sys W) (r : Outcome × LineState W) :
    (finish_line sys r).2.paths = r.2.paths := by
  rcases r with ⟨o, st⟩
  cases o <;> rfl

/-- C9: a `path` segment with no argument leaves the Search Path empty; an empty Search
Path stays empty under every segment other than a `path` segment with at least one
argument (parse failures, `exit`, `cd`, bare `path`, external commands), hence over every
line none of whose segments is such a `path` segment; and while it is empty every parsed
segment whose first token is not `exit`, `cd` or `path` emits the generic error once,
returns -1 and creates no process, for every system and world. -/
theorem C9_empty_path_fails_externals {W : Type} (sys : Sys W) :
    (∀ (paths : List Str) (w : W) (c : Str) (outfile : Option Str),
      parse_stage c = Parsed.ok ["path".toList] outfile →
        (handle_single_command sys paths w c).paths = []) ∧
    (∀ (w : W) (c : Str),
      (∀ argv outfile, parse_stage c = Parsed.ok argv outfile →
        ¬ (argv.head? = some "path".toList ∧ 2 ≤ argv.length)) →
        (handle_single_command sys [] w c).paths = []) ∧
    (∀ (w : W) (line : Str) (ps : List Str), (∀ p ∈ ps, '&' ∉ p) →
      trim (strip_newline line) = join_amp ps →
      (∀ p ∈ ps, ∀ argv outfile, parse_stage p = Parsed.ok argv outfile →
        ¬ (argv.head? = some "path".toList ∧ 2 ≤ argv.length)) →
        (process_line sys [] w line).2.paths = []) ∧
    (∀ (w : W) (c : Str) (argv : List Str) (outfile : Option Str) (name : Str),
      parse_stage c = Parsed.ok argv outfile → argv.head? = some name →
      name ≠ "exit".toList → name ≠ "cd".toList → name ≠ "path".toList →
        handle_single_command sys [] w c =
          ⟨Ret.returned (-1) (-1), [], w, [Event.error]⟩) := by
  refine ⟨?_, ?_, ?_, ?_⟩
  · intro paths w c outfile hp
    rw [handle_of_parse_ok sys paths w c _ outfile hp, dispatch_path]
  · intro w c hc
    exact handle_keeps_empty_path sys w c hc
  · intro w line ps hfree hline hps
    have hsame := process_line_same sys [] w line ps hfree hline
    rw [hsame.2.1, finish_line_paths]
    exact run_pieces_keeps_empty_path sys ps _ rfl hps
  · intro w c argv outfile name hp hname h1 h2 h3
    rw [handle_of_parse_ok sys [] w c argv outfile hp,
      dispatch_external sys [] w argv outfile name hname ⟨h1, h2, h3⟩,
      launch_command_of_resolve sys [] w argv outfile name hname, resolve_executable_nil]
    rfl

/-- Witness for C9: with an empty Search Path, `ls` fails although `/bin/ls` exists. -/
theorem C9_empty_path_fails_externals_witness :
    (handle_single_command (demoSys ["/bin/ls".toList]) [] 0 "ls".toList).events =
      [Event.error] :=
  congrArg Step.events
    ((C9_empty_path_fails_externals (demoSys ["/bin/ls".toList])).2.2.2 0 "ls".toList
      ["ls".toList] none "ls".toList (by decide) (by decide) (by decide) (by decide)
      (by decide))

/-! ## C20: `trim` -/

/-- C20: `trim s` is `s` without its longest prefix and its longest suffix of blanks
(space, tab, newline, carriage return): `s` is a run of blanks, then `trim s` unchanged,
then a run of blanks; when `trim s` is not empty its first and last characters are not
blanks; and `trim` is idempotent. -/
theorem C20_trim_removes_surrounding_blanks (s : Str) :
    trim s = (s.dropWhile is_trim_space).rdropWhile is_trim_space ∧
    (∃ lead trail, (∀ a ∈ lead, is_trim_space a = true) ∧
      (∀ a ∈ trail, is_trim_space a = true) ∧ s = lead ++ trim s ++ trail) ∧
    (∀ h : trim s ≠ [], is_trim_space ((trim s).head h) = false ∧
      is_trim_space ((trim s).getLast h) = false) ∧
    trim (trim s) = trim s := by
  refine ⟨trim_eq s, trim_decomp s, ?_, trim_idem s⟩
  intro h
  constructor
  · obtain ⟨c, r, hcr, hc, _⟩ := trim_ne_nil_head s h
    simp only [hcr, List.head_cons]
    exact hc
  · have hl := List.rdropWhile_last_not is_trim_space (s.dropWhile is_trim_space)
      (by rw [← trim_eq]; exact h)
    simp only [← trim_eq] at hl
    simpa using hl

/-! ## C17: zero tokens -/

theorem tokenize_whitespace_eq_nil_iff (s : Str) :
    tokenize_whitespace s = [] ↔ ∀ c ∈ s, is_token_sep c = true := by
  rw [← List.dropWhile_eq_nil_iff]
  cases s with
  | nil => simp [tokenize_whitespace, tokenize_loop]
  | cons a as =>
    unfold tokenize_whitespace
    rw [List.length_cons, tokenize_loop]
    cases hd : (a :: as).dropWhile is_token_sep with
    | nil => simp
    | cons c cs =>
      simp only [List.nil_append, reduceCtorEq, iff_false]
      intro hnil
      have hlen := congrArg List.length hnil
      split at hlen
      · simp at hlen
      · have := tokenize_loop_length_ge as.length
          ((c :: cs).dropWhile (fun x => !is_token_sep x))
          [(c :: cs).takeWhile (fun x => !is_token_sep x)]
        rw [hlen] at this
        simp at this

theorem is_trim_space_of_token_sep {c : Char} (h : is_token_sep c = true) :
    is_trim_space c = true := by
  unfold is_trim_space
  unfold is_token_sep at h
  rw [h]
  rfl

/-- C17 (amended): `tokenize_whitespace s` has no token exactly when `s` is empty or made
only of the tokenizer's separators (space, tab, newline); then `trim s` is empty too; and
on trimmed text, which is what the interpreter tokenizes, there is no token exactly when
the trimmed text is empty. -/
theorem C17_zero_tokens (s : Str) :
    (tokenize_whitespace s = [] ↔ ∀ c ∈ s, is_token_sep c = true) ∧
    (tokenize_whitespace s = [] → trim s = []) ∧
    (tokenize_whitespace (trim s) = [] ↔ trim s = []) := by
  refine ⟨tokenize_whitespace_eq_nil_iff s, ?_, ?_⟩
  · intro h
    apply trim_of_all
    intro a ha
    exact is_trim_space_of_token_sep ((tokenize_whitespace_eq_nil_iff s).mp h a ha)
  · constructor
    · intro h
      by_contra hne
      exact tokenize_trim_ne_nil s hne h
    · intro h
      rw [h]
      rfl

/-- C17 as written fails: the text made of one carriage return is only whitespace for
`trim`, which returns the empty string, yet the tokenizer returns one token for it. -/
theorem C17_counterexample :
    (∀ c ∈ "\r".toList, is_trim_space c = true) ∧ trim "\r".toList = [] ∧
    tokenize_whitespace "\r".toList = ["\r".toList] := by
  decide

/-! ## C15: blank lines -/

theorem strip_newline_all (line : Str) (h : ∀ c ∈ line, is_trim_space c = true) :
    ∀ c ∈ strip_newline line, is_trim_space c = true := by
  intro c hc
  unfold strip_newline at hc
  split at hc
  · exact h c (List.mem_of_mem_dropLast hc)
  · exact h c hc

/-- C15: a line made only of blanks (spaces, tabs, carriage returns, the final newline) or
of nothing at all is skipped: no event at all (no error, no launch, no wait), the Search
Path and the world are unchanged, and the interpreter goes on to read the next line. -/
theorem C15_blank_line_is_noop {W : Type} (sys : Sys W) (interactive : Bool)
    (paths : List Str) (w : W) (line : Str) (rest : List Str)
    (h : ∀ c ∈ line, is_trim_space c = true) :
    process_line sys paths w line = (Outcome.running, ⟨paths, w, [], false, []⟩) ∧
    main_loop sys interactive (line :: rest) paths w =
      { main_loop sys interactive rest paths w with
        trace := (if interactive then [Event.prompt] else []) ++ [Event.read_line] ++
          (main_loop sys interactive rest paths w).trace } := by
  have hp := process_line_blank sys paths w line
    (trim_of_all _ (strip_newline_all line h))
  refine ⟨hp, ?_⟩
  conv_lhs => unfold main_loop
  simp only [hp, List.append_nil]

/-- Witness for C15: the line made of a space, a tab, a carriage return and a newline. -/
theorem C15_blank_line_is_noop_witness :
    (process_line (demoSys ["/bin/ls".toList]) init_default_path 0 " \t\r\n".toList).2.trace
      = [] :=
  congrArg (fun r => r.2.trace)
    (C15_blank_line_is_noop (demoSys ["/bin/ls".toList]) false init_default_path 0
      " \t\r\n".toList [] (by decide)).1

/-! ## C13: the Search Path is changed only by `path` -/

theorem dispatch_paths_of_not_path {W : Type} (sys : Sys W) (paths : List Str) (w : W)
    (argv : List Str) (outfile : Option Str) (h : argv.head? ≠ some "path".toList) :
    (dispatch sys paths w argv outfile).paths = paths := by
  unfold dispatch
  split
  · split <;> rfl
  · split
    · split
      · split <;> rfl
      · rfl
    · split
      · rfl
      · split <;> rfl

/-- C13: every segment whose parsed first token is not `path` (a segment that fails to
parse, `exit`, `cd`, an external command whether it resolves or not) leaves the Search
Path as it was, in `handle_single_command` and in the state of the line. -/
theorem C13_search_path_changed_only_by_path {W : Type} (sys : Sys W) (c : Str)
    (h : ∀ argv outfile, parse_stage c = Parsed.ok argv outfile →
      argv.head? ≠ some "path".toList) :
    (∀ (paths : List Str) (w : W), (handle_single_command sys paths w c).paths = paths) ∧
    (∀ st : LineState W, (run_piece sys st c).2.paths = st.paths) := by
  have hh : ∀ (paths : List Str) (w : W),
      (handle_single_command sys paths w c).paths = paths := by
    intro paths w
    cases hp : parse_stage c with
    | fail b => rw [handle_of_parse_fail sys paths w c b hp]
    | ok argv outfile =>
      rw [handle_of_parse_ok sys paths w c argv outfile hp]
      exact dispatch_paths_of_not_path sys paths w argv outfile (h argv outfile hp)
  refine ⟨hh, ?_⟩
  intro st
  by_cases hnil : trim c = []
  · rw [run_piece_of_empty sys st c hnil]
  · have hk := hh st.paths st.world
    rcases hr : handle_single_command sys st.paths st.world c with ⟨ret, p2, w2, ev⟩
    rw [hr] at hk
    simp only at hk
    subst hk
    cases ret with
    | returned rc pid => rw [run_piece_of_returned sys st c rc pid _ w2 ev hnil hr]
    | exited status => rw [run_piece_of_exited sys st c status _ w2 ev hnil hr]
    | child => rw [run_piece_of_child sys st c _ w2 ev hnil hr]

/-- Witness for C13: the external command `ls` leaves the Search Path `/usr`, `/bin`. -/
theorem C13_search_path_changed_only_by_path_witness :
    (handle_single_command (demoSys ["/bin/ls".toList]) ["/usr".toList, "/bin".toList] 0
      "ls".toList).paths = ["/usr".toList, "/bin".toList] :=
  (C13_search_path_changed_only_by_path (demoSys ["/bin/ls".toList]) "ls".toList
    (by
      intro argv outfile hp
      have hls : parse_stage "ls".toList = Parsed.ok ["ls".toList] none := by decide
      rw [hls] at hp
      injection hp with h1 _
      subst h1
      decide)).1 ["/usr".toList, "/bin".toList] 0

/-! ## C12 and C19: built-ins -/

/-- The dispatch of a built-in uses the system only through `chdir` and does not look at
the redirection target. -/
theorem dispatch_builtin_congr {W : Type} (sys sys2 : Sys W) (paths : List Str) (w : W)
    (argv : List Str) (o1 o2 : Option Str)
    (hhead : argv.head? = some "exit".toList ∨ argv.head? = some "cd".toList ∨
      argv.head? = some "path".toList)
    (hc : sys2.chdir = sys.chdir) :
    dispatch sys2 paths w argv o2 = dispatch sys paths w argv o1 := by
  unfold dispatch
  by_cases h1 : argv.head? = some "exit".toList
  · simp only [if_pos h1]
  · by_cases h2 : argv.head? = some "cd".toList
    · simp only [if_neg h1, if_pos h2, hc]
    · have h3 : argv.head? = some "path".toList := by
        rcases hhead with h | h | h
        · exact absurd h h1
        · exact absurd h h2
        · exact h
      simp only [if_neg h1, if_neg h2, if_pos h3]

/-- What a built-in can do: its events are error messages and `chdir` calls, and it either
terminates the interpreter with status 0 or returns with `out_pid = -1`. -/
theorem dispatch_builtin_shape {W : Type} (sys : Sys W) (paths : List Str) (w : W)
    (argv : List Str) (outfile : Option Str)
    (hhead : argv.head? = some "exit".toList ∨ argv.head? = some "cd".toList ∨
      argv.head? = some "path".toList) :
    (∀ e ∈ (dispatch sys paths w argv outfile).events,
      e = Event.error ∨ ∃ d ok, e = Event.chdir d ok) ∧
    ((dispatch sys paths w argv outfile).ret = Ret.exited 0 ∨
      ∃ rc, (dispatch sys paths w argv outfile).ret = Ret.returned rc (-1)) := by
  unfold dispatch
  by_cases h1 : argv.head? = some "exit".toList
  · simp only [if_pos h1]
    split
    · exact ⟨by simp, Or.inr ⟨-1, rfl⟩⟩
    · exact ⟨by simp, Or.inl rfl⟩
  · by_cases h2 : argv.head? = some "cd".toList
    · simp only [if_neg h1, if_pos h2]
      split
      · split
        · exact ⟨by simp, Or.inr ⟨-1, rfl⟩⟩
        · exact ⟨by simp, Or.inr ⟨0, rfl⟩⟩
      · exact ⟨by simp, Or.inr ⟨-1, rfl⟩⟩
    · have h3 : argv.head? = some "path".toList := by
        rcases hhead with h | h | h
        · exact absurd h h1
        · exact absurd h h2
        · exact h
      simp only [if_neg h1, if_neg h2, if_pos h3]
      exact ⟨by simp, Or.inr ⟨0, rfl⟩⟩

/-- C12: for every segment whose parsed argument vector starts with `exit`, `cd` or
`path`, whether the built-in succeeds or fails: the only events are error messages and
`chdir` calls (no process is created), the result is the same under every system with the
same `chdir` (so neither `access`, the resolver's test, nor `fork` is consulted), the
function either terminates the interpreter with status 0 or returns with `out_pid = -1`,
and the handles recorded for the line are unchanged. -/
theorem C12_builtins_never_create_a_process {W : Type} (sys : Sys W) (c : Str)
    (argv : List Str) (outfile : Option Str)
    (hparse : parse_stage c = Parsed.ok argv outfile)
    (hhead : argv.head? = some "exit".toList ∨ argv.head? = some "cd".toList ∨
      argv.head? = some "path".toList) :
    (∀ (paths : List Str) (w : W),
      (∀ e ∈ (handle_single_command sys paths w c).events,
        e = Event.error ∨ ∃ d ok, e = Event.chdir d ok) ∧
      ((handle_single_command sys paths w c).ret = Ret.exited 0 ∨
        ∃ rc, (handle_single_command sys paths w c).ret = Ret.returned rc (-1)) ∧
      (∀ sys2 : Sys W, sys2.chdir = sys.chdir →
        handle_single_command sys2 paths w c = handle_single_command sys paths w c)) ∧
    (∀ st : LineState W, (run_piece sys st c).2.pids = st.pids) := by
  have hh : ∀ (paths : List Str) (w : W),
      (∀ e ∈ (handle_single_command sys paths w c).events,
        e = Event.error ∨ ∃ d ok, e = Event.chdir d ok) ∧
      ((handle_single_command sys paths w c).ret = Ret.exited 0 ∨
        ∃ rc, (handle_single_command sys paths w c).ret = Ret.returned rc (-1)) ∧
      (∀ sys2 : Sys W, sys2.chdir = sys.chdir →
        handle_single_command sys2 paths w c = handle_single_command sys paths w c) := by
    intro paths w
    rw [handle_of_parse_ok sys paths w c argv outfile hparse]
    obtain ⟨he, hr⟩ := dispatch_builtin_shape sys paths w argv outfile hhead
    refine ⟨he, hr, ?_⟩
    intro sys2 hc
    rw [handle_of_parse_ok sys2 paths w c argv outfile hparse]
    exact dispatch_builtin_congr sys sys2 paths w argv outfile outfile hhead hc
  refine ⟨hh, ?_⟩
  intro st
  have hnil := trim_ne_nil_of_parse_ok c argv outfile hparse
  obtain ⟨_, hret, _⟩ := hh st.paths st.world
  rcases hr : handle_single_command sys st.paths st.world c with ⟨ret, p2, w2, ev⟩
  rw [hr] at hret
  simp only at hret
  rcases hret with he | ⟨rc, he⟩
  · subst he
    rw [run_piece_of_exited sys st c 0 p2 w2 ev hnil hr]
  · subst he
    rw [run_piece_of_returned sys st c rc (-1) p2 w2 ev hnil hr]
    simp

/-- Witness for C12: `cd /nowhere` fails without creating a process. -/
theorem C12_builtins_never_create_a_process_witness :
    (run_piece (demoSys ["/bin/ls".toList]) ⟨init_default_path, 0, [7], false, []⟩
      "cd /nowhere".toList).2.pids = [7] :=
  (C12_builtins_never_create_a_process (demoSys ["/bin/ls".toList]) "cd /nowhere".toList
    ["cd".toList, "/nowhere".toList] none (by decide) (by decide)).2
    ⟨init_default_path, 0, [7], false, []⟩

theorem ne_gt_of_not_mem (B : Str) (h : '>' ∉ B) : ∀ a ∈ B, (a != '>') = true := by
  intro a ha
  have : a ≠ '>' := fun e => h (e ▸ ha)
  simpa using this

theorem text_right_of_append_gt (B R : Str) (h : '>' ∉ B) :
    text_right_of '>' (B ++ '>' :: R) = R := by
  unfold text_right_of
  rw [List.dropWhile_append_of_pos (ne_gt_of_not_mem B h)]
  simp [List.dropWhile_cons]

theorem before_char_append_gt (B R : Str) (h : '>' ∉ B) :
    before_char '>' (B ++ '>' :: R) = B := by
  unfold before_char
  rw [List.takeWhile_append_of_pos (ne_gt_of_not_mem B h)]
  simp [List.takeWhile_cons]

theorem count_gt_append (B R : Str) (hB : '>' ∉ B) (hR : '>' ∉ R) :
    (B ++ '>' :: R).count '>' = 1 := by
  rw [List.count_append, List.count_cons_self, List.count_eq_zero.mpr hB,
    List.count_eq_zero.mpr hR]

/-- The first character of the trimmed text does not change when text is appended to a
text that is not blank. -/
theorem trim_head_append (B X : Str) (h : trim B ≠ []) :
    (trim (B ++ X)).head? = (trim B).head? ∧ ∃ a ∈ B, (trim B).head? = some a := by
  unfold trim at h ⊢
  cases hd : B.dropWhile is_trim_space with
  | nil => simp [hd] at h
  | cons a rest =>
    have ha : is_trim_space a = false := by
      have := List.head_dropWhile_not is_trim_space B (by simp [hd])
      simpa [hd] using this
    have hmem : a ∈ B := by
      have : a ∈ B.dropWhile is_trim_space := by simp [hd]
      exact (List.dropWhile_suffix _).subset this
    have hex : ∃ b ∈ B, is_trim_space b = false := ⟨a, hmem, ha⟩
    rw [dropWhile_append_of_mem_neg _ _ _ hex, hd]
    exact ⟨rfl, a, hmem, rfl⟩

/-- A built-in followed by a well-formed redirection parses to the argument vector of the
built-in alone. -/
theorem parse_stage_builtin_redirect (B R f : Str) (argv : List Str) (o : Option Str)
    (hB : '>' ∉ B) (hR : '>' ∉ R) (hf : tokenize_whitespace (trim R) = [f])
    (hparse : parse_stage B = Parsed.ok argv o) :
    parse_stage (B ++ '>' :: R) = Parsed.ok argv (some f) := by
  have hBne : trim B ≠ [] := trim_ne_nil_of_parse_ok B argv o hparse
  obtain ⟨hhead, a, haB, hah⟩ := trim_head_append B ('>' :: R) hBne
  have hcne : trim (B ++ '>' :: R) ≠ [] := by
    intro e
    rw [e, hah] at hhead
    exact Option.noConfusion hhead
  have hcount := count_gt_append B R hB hR
  have hnm : ¬ malformed (B ++ '>' :: R) := by
    unfold malformed
    rw [hcount, text_right_of_append_gt B R hB, hf, hhead, hah]
    rintro (h | h | ⟨_, h | h⟩)
    · injection h with h1
      exact hB (h1 ▸ haB)
    · omega
    · rw [h] at hf
      exact List.noConfusion hf
    · simp at h
  obtain ⟨c0, r0, ht, hc0, _⟩ := trim_ne_nil_head _ hcne
  rcases parse_stage_cases _ c0 r0 ht hc0 with ⟨hm, _⟩ | ⟨_, argv2, o2, _, hp, hargv, hout⟩
  · exact absurd hm hnm
  · obtain ⟨_, _, hargvB, _⟩ := parse_ok_spec B argv o hparse
    rw [trim_before_char_trim, before_char_append_gt B R hB] at hargv
    rw [trim_before_char_trim, before_char_of_count_zero B (List.count_eq_zero.mpr hB)]
      at hargvB
    rw [hp, hargv, ← hargvB]
    rcases hout with ⟨h0, _⟩ | ⟨_, g, hg, ho⟩
    · omega
    · rw [text_right_of_append_gt B R hB, hf] at hg
      injection hg with hg1 _
      rw [ho, hg1]

/-! ## C19: redirection on a built-in -/

/-- C19: for every segment `B > f` with no marker in `B`, exactly one token `f` right of
the marker, and `B` a segment whose first token is `exit`, `cd` or `path`: the segment
parses to the argument vector of `B` with target `f`, handling it gives exactly the result
of handling `B` alone (termination, `chdir` call, new Search Path, error, return value),
and its only events are error messages and `chdir` calls, so there is no process that
could open `f`. -/
theorem C19_redirection_on_builtin_ignored {W : Type} (sys : Sys W) (paths : List Str)
    (w : W) (B R f : Str) (argv : List Str) (o : Option Str)
    (hB : '>' ∉ B) (hR : '>' ∉ R) (hf : tokenize_whitespace (trim R) = [f])
    (hparse : parse_stage B = Parsed.ok argv o)
    (hhead : argv.head? = some "exit".toList ∨ argv.head? = some "cd".toList ∨
      argv.head? = some "path".toList) :
    parse_stage (B ++ '>' :: R) = Parsed.ok argv (some f) ∧
    handle_single_command sys paths w (B ++ '>' :: R) = handle_single_command sys paths w B ∧
    (∀ e ∈ (handle_single_command sys paths w (B ++ '>' :: R)).events,
      e = Event.error ∨ ∃ d ok, e = Event.chdir d ok) := by
  have hp := parse_stage_builtin_redirect B R f argv o hB hR hf hparse
  refine ⟨hp, ?_, ?_⟩
  · rw [handle_of_parse_ok sys paths w _ argv (some f) hp,
      handle_of_parse_ok sys paths w B argv o hparse]
    exact dispatch_builtin_congr sys sys paths w argv o (some f) hhead rfl
  · rw [handle_of_parse_ok sys paths w _ argv (some f) hp]
    exact (dispatch_builtin_shape sys paths w argv (some f) hhead).1

/-- Witness for C19: `path /usr > f` sets the Search Path like `path /usr`. -/
theorem C19_redirection_on_builtin_ignored_witness :
    handle_single_command (demoSys []) init_default_path 0
        ("path /usr ".toList ++ '>' :: " f".toList) =
      handle_single_command (demoSys []) init_default_path 0 "path /usr ".toList :=
  (C19_redirection_on_builtin_ignored (demoSys []) init_default_path 0 "path /usr ".toList
    " f".toList "f".toList ["path".toList, "/usr".toList] none (by decide) (by decide)
    (by decide) (by decide) (by decide)).2.1

/-! ## C16: one error message per failure -/

/-- The five ways in which a segment that is not empty can end. -/
theorem handle_outcomes {W : Type} (sys : Sys W) (paths : List Str) (w : W) (c : Str)
    (h : trim c ≠ []) :
    ((handle_single_command sys paths w c).ret = Ret.returned (-1) (-1) ∧
      error_count (handle_single_command sys paths w c).events = 1) ∨
    ((handle_single_command sys paths w c).ret = Ret.returned 0 (-1) ∧
      error_count (handle_single_command sys paths w c).events = 0) ∨
    ((∃ pid, 0 < pid ∧ (handle_single_command sys paths w c).ret = Ret.returned 1 pid) ∧
      error_count (handle_single_command sys paths w c).events = 0) ∨
    ((handle_single_command sys paths w c).ret = Ret.exited 0 ∧
      error_count (handle_single_command sys paths w c).events = 0) ∨
    ((handle_single_command sys paths w c).ret = Ret.child ∧
      error_count (handle_single_command sys paths w c).events = 0) := by
  obtain ⟨a, r, ht, ha, _⟩ := trim_ne_nil_head c h
  rcases parse_stage_cases c a r ht ha with ⟨_, hp⟩ | ⟨_, argv, outfile, hne, hp, _, _⟩
  · rw [handle_of_parse_fail sys paths w c true hp]
    exact Or.inl ⟨rfl, rfl⟩
  · rw [handle_of_parse_ok sys paths w c argv outfile hp]
    by_cases h1 : argv.head? = some "exit".toList
    · by_cases hl : argv.length ≠ 1
      · rw [dispatch_exit_misuse sys paths w argv outfile h1 hl]
        exact Or.inl ⟨rfl, rfl⟩
      · unfold dispatch
        rw [if_pos h1, if_neg hl]
        exact Or.inr (Or.inr (Or.inr (Or.inl ⟨rfl, rfl⟩)))
    · by_cases h2 : argv.head? = some "cd".toList
      · unfold dispatch
        rw [if_neg h1, if_pos h2]
        split
        · split
          · exact Or.inl ⟨rfl, rfl⟩
          · exact Or.inr (Or.inl ⟨rfl, rfl⟩)
        · exact Or.inl ⟨rfl, rfl⟩
      · by_cases h3 : argv.head? = some "path".toList
        · unfold dispatch
          rw [if_neg h1, if_neg h2, if_pos h3]
          exact Or.inr (Or.inl ⟨rfl, rfl⟩)
        · cases argv with
          | nil => exact absurd rfl hne
          | cons name rest =>
            have hname : (name :: rest).head? = some name := rfl
            have hb : name ≠ "exit".toList ∧ name ≠ "cd".toList ∧ name ≠ "path".toList :=
              ⟨fun e => h1 (by rw [hname, e]), fun e => h2 (by rw [hname, e]),
                fun e => h3 (by rw [hname, e])⟩
            rw [dispatch_external sys paths w _ outfile name hname hb,
              launch_command_of_resolve sys paths w _ outfile name hname]
            cases resolve_executable (sys.access w) paths name with
            | none => exact Or.inl ⟨rfl, rfl⟩
            | some full =>
              simp only
              by_cases hf1 : (sys.fork w).1 < 0
              · rw [if_pos hf1]
                exact Or.inl ⟨rfl, rfl⟩
              · rw [if_neg hf1]
                by_cases hf2 : (sys.fork w).1 = 0
                · rw [if_pos hf2]
                  exact Or.inr (Or.inr (Or.inr (Or.inr ⟨rfl, rfl⟩)))
                · have hpos : 0 < (sys.fork w).1 := by omega
                  rw [if_neg hf2]
                  simp only [if_pos hpos]
                  exact Or.inr (Or.inr (Or.inl ⟨⟨_, hpos, rfl⟩, rfl⟩))

/-- C16 (amended): for every segment that is not empty after trimming, allocation
succeeding, whenever `handle_single_command` returns, it returns -1, 0 or 1; it returns -1
if and only if the interpreter wrote the generic error message exactly once while handling
the segment, and 0 or 1 if and only if it wrote it zero times. When it does not return
(a successful `exit`, which ends the interpreter with status 0, or the forked child)
the interpreter wrote no message. The silent failure of the parsing stage is unreachable
and a parsed argument vector is never empty. -/
theorem C16_one_error_per_failure {W : Type} (sys : Sys W) (paths : List Str) (w : W)
    (c : Str) (h : trim c ≠ []) :
    (∀ rc pid, (handle_single_command sys paths w c).ret = Ret.returned rc pid →
      (rc = -1 ∨ rc = 0 ∨ rc = 1) ∧
      (rc = -1 ↔ error_count (handle_single_command sys paths w c).events = 1) ∧
      ((rc = 0 ∨ rc = 1) ↔ error_count (handle_single_command sys paths w c).events = 0)) ∧
    ((∀ rc pid, (handle_single_command sys paths w c).ret ≠ Ret.returned rc pid) →
      error_count (handle_single_command sys paths w c).events = 0 ∧
      ((handle_single_command sys paths w c).ret = Ret.exited 0 ∨
        (handle_single_command sys paths w c).ret = Ret.child)) ∧
    parse_stage c ≠ Parsed.fail false ∧
    (∀ outfile, parse_stage c ≠ Parsed.ok [] outfile) := by
  refine ⟨?_, ?_, ?_, ?_⟩
  · intro rc pid hret
    rcases handle_outcomes sys paths w c h with
      ⟨hr, he⟩ | ⟨hr, he⟩ | ⟨⟨p, _, hr⟩, he⟩ | ⟨hr, he⟩ | ⟨hr, he⟩
    · rw [hr] at hret
      injection hret with h1 _
      subst h1
      rw [he]
      simp
    · rw [hr] at hret
      injection hret with h1 _
      subst h1
      rw [he]
      simp
    · rw [hr] at hret
      injection hret with h1 _
      subst h1
      rw [he]
      simp
    · rw [hr] at hret
      exact Ret.noConfusion hret
    · rw [hr] at hret
      exact Ret.noConfusion hret
  · intro hnot
    rcases handle_outcomes sys paths w c h with
      ⟨hr, _⟩ | ⟨hr, _⟩ | ⟨⟨p, _, hr⟩, _⟩ | ⟨hr, he⟩ | ⟨hr, he⟩
    · exact absurd hr (hnot _ _)
    · exact absurd hr (hnot _ _)
    · exact absurd hr (hnot _ _)
    · exact ⟨he, Or.inl hr⟩
    · exact ⟨he, Or.inr hr⟩
  · obtain ⟨a, r, ht, ha, _⟩ := trim_ne_nil_head c h
    rcases parse_stage_cases c a r ht ha with ⟨_, hp⟩ | ⟨_, argv, outfile, _, hp, _, _⟩
    · rw [hp]
      simp
    · rw [hp]
      simp
  · intro outfile hp
    exact (parse_ok_spec c [] outfile hp).2.1 rfl

/-- Witness for C16: `cd` without argument returns -1 after one error message. -/
theorem C16_one_error_per_failure_witness :
    trim "cd".toList ≠ [] ∧
    error_count (handle_single_command (demoSys []) init_default_path 0 "cd".toList).events
      = 1 :=
  ⟨by decide,
    ((C16_one_error_per_failure (demoSys []) init_default_path 0 "cd".toList
      (by decide)).1 (-1) (-1) (by decide)).2.1.mp rfl⟩

/-- C16 as written fails: the segment `exit` is not empty, the interpreter writes the
error message zero times while handling it, yet `handle_single_command` does not return 0
or 1: it does not return at all, the interpreter exits with status 0. -/
theorem C16_counterexample :
    trim "exit".toList ≠ [] ∧
    error_count (handle_single_command (demoSys []) init_default_path 0
      "exit".toList).events = 0 ∧
    (handle_single_command (demoSys []) init_default_path 0 "exit".toList).ret
      = Ret.exited 0 := by
  decide

/-! ## C11: the tokenizer -/

theorem token_runs_nil : token_runs [] = [] := rfl

theorem token_runs_cons_sep (c : Char) (cs : Str) (h : is_token_sep c = true) :
    token_runs (c :: cs) = token_runs cs := by
  unfold token_runs
  rw [List.splitOnP_cons, if_pos h]
  rfl

theorem token_runs_lead (seps x : Str) (h : ∀ a ∈ seps, is_token_sep a = true) :
    token_runs (seps ++ x) = token_runs x := by
  induction seps with
  | nil => rfl
  | cons a as ih =>
    rw [List.cons_append, token_runs_cons_sep _ _ (h a (List.mem_cons_self _ _))]
    exact ih (fun b hb => h b (List.mem_cons_of_mem _ hb))

theorem token_runs_of_all (s : Str) (h : ∀ a ∈ s, is_token_sep a = true) :
    token_runs s = [] := by
  have := token_runs_lead s [] h
  rwa [List.append_nil] at this

/-- The first run of a text that starts with a non-separator is its longest prefix without
a separator; the other runs are those of what follows. -/
theorem token_runs_cons_of_neg (c : Char) (cs : Str) (h : is_token_sep c = false) :
    token_runs (c :: cs) =
      (c :: cs).takeWhile (fun x => !is_token_sep x) ::
        token_runs ((c :: cs).dropWhile (fun x => !is_token_sep x)) := by
  have hsplit := List.takeWhile_append_dropWhile (fun x => !is_token_sep x) (c :: cs)
  have htok : ∀ x ∈ (c :: cs).takeWhile (fun x => !is_token_sep x), ¬ is_token_sep x = true := by
    intro x hx
    have := List.mem_takeWhile_imp hx
    simpa using this
  have hne : ((c :: cs).takeWhile (fun x => !is_token_sep x)).isEmpty = false := by
    simp [List.takeWhile_cons, h]
  cases hd : (c :: cs).dropWhile (fun x => !is_token_sep x) with
  | nil =>
    rw [hd, List.append_nil] at hsplit
    rw [hsplit] at htok hne ⊢
    unfold token_runs
    rw [List.splitOnP_eq_single _ _ htok]
    simp [hne]
  | cons d rest =>
    have hdsep : is_token_sep d = true := by
      have := List.head_dropWhile_not (fun x => !is_token_sep x) (c :: cs) (by simp [hd])
      simpa [hd] using this
    rw [token_runs_cons_sep d rest hdsep]
    conv_lhs => rw [← hsplit, hd]
    unfold token_runs
    rw [List.splitOnP_first _ _ htok d hdsep]
    simp [hne]

/-- With enough fuel the loop of the tokenizer appends the runs of the remaining text to
the tokens stored so far, up to the cap. -/
theorem tokenize_loop_eq_runs (fuel : Nat) (p : Str) (argv : List Str)
    (hcap : argv.length < MAX_TOKENS) (hfuel : p.length ≤ fuel) :
    tokenize_loop fuel p argv = (argv ++ token_runs p).take MAX_TOKENS := by
  induction fuel generalizing p argv with
  | zero =>
    have hp : p = [] := List.length_eq_zero.mp (Nat.le_zero.mp hfuel)
    subst hp
    rw [tokenize_loop, token_runs_nil, List.append_nil, List.take_of_length_le (by omega)]
  | succ n ih =>
    rw [tokenize_loop]
    have hsplit := List.takeWhile_append_dropWhile is_token_sep p
    cases hd : p.dropWhile is_token_sep with
    | nil =>
      have hall : ∀ a ∈ p, is_token_sep a = true := List.dropWhile_eq_nil_iff.mp hd
      rw [token_runs_of_all p hall, List.append_nil, List.take_of_length_le (by omega)]
    | cons c cs =>
      have hc : is_token_sep c = false := by
        have := List.head_dropWhile_not is_token_sep p (by simp [hd])
        simpa [hd] using this
      have hruns : token_runs p = (c :: cs).takeWhile (fun x => !is_token_sep x) ::
          token_runs ((c :: cs).dropWhile (fun x => !is_token_sep x)) := by
        conv_lhs => rw [← hsplit, hd]
        rw [token_runs_lead _ _ (fun a ha => List.mem_takeWhile_imp ha)]
        exact token_runs_cons_of_neg c cs hc
      have hlt := length_dropWhile_not_sep_lt c cs hc
      have hle : (c :: cs).length ≤ p.length := by
        rw [← hd]
        exact (List.dropWhile_suffix _).length_le
      simp only
      rw [hruns]
      split
      · rename_i hfull
        rw [List.length_append, List.length_singleton] at hfull
        have hlen : (argv ++ [(c :: cs).takeWhile (fun x => !is_token_sep x)]).length
            = MAX_TOKENS := by
          rw [List.length_append, List.length_singleton]
          omega
        have e : argv ++ (c :: cs).takeWhile (fun x => !is_token_sep x) ::
            token_runs ((c :: cs).dropWhile (fun x => !is_token_sep x)) =
            (argv ++ [(c :: cs).takeWhile (fun x => !is_token_sep x)]) ++
              token_runs ((c :: cs).dropWhile (fun x => !is_token_sep x)) := by
          simp
        rw [e, List.take_left' hlen]
      · rename_i hfull
        rw [ih _ _ (by omega) (by omega), List.append_assoc, List.singleton_append]

theorem mem_splitOnP_no_sep (p : Char → Bool) (s : Str) :
    ∀ t ∈ s.splitOnP p, ∀ c ∈ t, p c = false := by
  induction s with
  | nil => simp
  | cons a as ih =>
    rw [List.splitOnP_cons]
    by_cases ha : p a = true
    · rw [if_pos ha]
      intro t ht c hc
      rcases List.mem_cons.mp ht with e | ht
      · rw [e] at hc
        simp at hc
      · exact ih t ht c hc
    · rw [if_neg ha]
      cases hs : as.splitOnP p with
      | nil => simp
      | cons h tl =>
        rw [hs] at ih
        intro t ht c hc
        simp only [List.modifyHead_cons, List.mem_cons] at ht
        rcases ht with e | ht
        · rw [e] at hc
          rcases List.mem_cons.mp hc with e2 | hc
          · rw [e2]
            simpa using ha
          · exact ih h (List.mem_cons_self _ _) c hc
        · exact ih t (List.mem_cons_of_mem _ ht) c hc

/-- C11: for every string `s`, `tokenize_whitespace s` is the list of the maximal runs of
characters of `s` other than space, tab and newline, in order, cut to the first
`MAX_TOKENS = 512` of them; every token is non-empty and free of space, tab and newline;
and the count is the number of runs or 512, whichever is smaller, so a text with more runs
is not a failure. -/
theorem C11_tokenizer_runs_with_cap (s : Str) :
    tokenize_whitespace s = (token_runs s).take MAX_TOKENS ∧
    (∀ t ∈ tokenize_whitespace s, t ≠ [] ∧ ∀ c ∈ t, is_token_sep c = false) ∧
    (tokenize_whitespace s).length = min (token_runs s).length 512 := by
  have heq : tokenize_whitespace s = (token_runs s).take MAX_TOKENS := by
    unfold tokenize_whitespace
    rw [tokenize_loop_eq_runs s.length s [] (by decide) (Nat.le_refl _), List.nil_append]
  refine ⟨heq, ?_, ?_⟩
  · intro t ht
    rw [heq] at ht
    have hmem : t ∈ token_runs s := List.mem_of_mem_take ht
    unfold token_runs at hmem
    rw [List.mem_filter] at hmem
    refine ⟨?_, mem_splitOnP_no_sep is_token_sep s t hmem.1⟩
    intro e
    rw [e] at hmem
    simp at hmem
  · rw [heq, List.length_take]
    exact Nat.min_comm _ _

/-! ## C14: segmentation -/

theorem join_amp_eq_intercalate (ps : List Str) : join_amp ps = ['&'].intercalate ps := by
  induction ps with
  | nil => rfl
  | cons p qs ih =>
    cases qs with
    | nil => simp [join_amp, List.intercalate]
    | cons q qs =>
      simp only [join_amp, ih]
      simp [List.intercalate]

theorem splitOn_join_amp (ps : List Str) (hne : ps ≠ []) (hfree : ∀ p ∈ ps, '&' ∉ p) :
    (join_amp ps).splitOn '&' = ps := by
  rw [join_amp_eq_intercalate]
  exact List.splitOn_intercalate ps '&' hfree hne

theorem count_amp_join_amp (ps : List Str) (hne : ps ≠ []) (hfree : ∀ p ∈ ps, '&' ∉ p) :
    (join_amp ps).count '&' + 1 = ps.length := by
  induction ps with
  | nil => exact absurd rfl hne
  | cons p qs ih =>
    have hp : p.count '&' = 0 := List.count_eq_zero.mpr (hfree p (List.mem_cons_self _ _))
    cases qs with
    | nil => simp [join_amp, hp]
    | cons q qs =>
      have := ih (by simp) (fun x hx => hfree x (List.mem_cons_of_mem _ hx))
      simp only [join_amp, List.count_append, List.count_cons_self, hp, List.length_cons]
        at this ⊢
      omega

/-- With enough fuel the loop visits the pieces between the separators in order, stopping
after the first piece that ends the interpreter: what it visits is a prefix of the pieces,
and all of them when the interpreter is still running at the end. -/
theorem segment_visits_pieces {W : Type} (sys : Sys W) (ps : List Str)
    (hne : ps ≠ []) (hfree : ∀ p ∈ ps, '&' ∉ p) (fuel : Nat) (st : LineState W)
    (hfuel : (join_amp ps).length < fuel) :
    segment_visits sys fuel (join_amp ps) st <+: ps ∧
    ((run_pieces sys ps st).1 = Outcome.running →
      segment_visits sys fuel (join_amp ps) st = ps) := by
  induction ps generalizing fuel st with
  | nil => exact absurd rfl hne
  | cons p qs ih =>
    cases fuel with
    | zero => exact absurd hfuel (Nat.not_lt_zero _)
    | succ n =>
      have hp : '&' ∉ p := hfree p (List.mem_cons_self _ _)
      cases qs with
      | nil =>
        unfold segment_visits
        simp only [join_amp, strchr_amp_of_free p hp]
        exact ⟨List.prefix_refl _, fun _ => trivial⟩
      | cons q qs =>
        have hlen : (join_amp (q :: qs)).length < n := by
          simp only [join_amp, List.length_append, List.length_cons] at hfuel
          omega
        have ih2 := fun st2 => ih (by simp) (fun x hx => hfree x (List.mem_cons_of_mem _ hx))
          n st2 hlen
        unfold segment_visits
        simp only [join_amp, strchr_amp_append p _ hp, before_char_amp_append p _ hp,
          List.tail_cons]
        rw [run_pieces]
        rcases hr : run_piece sys st p with ⟨o, st2⟩
        cases o with
        | running =>
          simp only
          obtain ⟨hpre, hall⟩ := ih2 st2
          refine ⟨?_, ?_⟩
          · obtain ⟨t, ht⟩ := hpre
            exact ⟨t, by rw [List.cons_append, ht]⟩
          · intro hrun
            rw [hall hrun]
        | exited status =>
          exact ⟨⟨q :: qs, rfl⟩, fun h => Outcome.noConfusion h⟩
        | child =>
          exact ⟨⟨q :: qs, rfl⟩, fun h => Outcome.noConfusion h⟩

/-! ## C18: capacity of the handle array -/

/-- The model evaluated on the line of 513 commands: the interpreter keeps running and has
recorded 513 handles. -/
theorem overflow_line_eval :
    MAX_TOKENS = 512 ∧ overflow_line.count '&' = 512 ∧
    (process_line (demoSys ["/bin/ls".toList]) init_default_path 0 overflow_line).1 =
      Outcome.running ∧
    (process_line (demoSys ["/bin/ls".toList]) init_default_path 0
      overflow_line).2.pids.length = 513 := by
  set_option maxRecDepth 1000000 in
  decide

/-- C18 (code at the failing input): on a line of 513 commands `ls` separated by `&`, with
`/bin/ls` executable and every `fork` succeeding, the interpreter keeps running and has
recorded 513 handles when the segmentation loop ends, one more than the capacity
`MAX_TOKENS = 512` of the array `pids`: the last store `pids[pcount++]` was made with
`pcount = 512`. -/
theorem C18_handle_array_overflows :
    MAX_TOKENS = 512 ∧ overflow_line.count '&' = 512 ∧
    (process_line (demoSys ["/bin/ls".toList]) init_default_path 0 overflow_line).1 =
      Outcome.running ∧
    (process_line (demoSys ["/bin/ls".toList]) init_default_path 0
      overflow_line).2.pids.length = 513 :=
  overflow_line_eval

/-! ## C5: failures are local -/

theorem same_launches_of_same_effects {W : Type} {r1 r2 : Outcome × LineState W}
    (h : same_effects r1 r2) : same_launches r1 r2 :=
  ⟨h.1, h.2.1, h.2.2.2.2⟩

theorem same_launches_symm {W : Type} {r1 r2 : Outcome × LineState W}
    (h : same_launches r1 r2) : same_launches r2 r1 :=
  ⟨h.1.symm, h.2.1.symm, h.2.2.symm⟩

theorem same_launches_trans {W : Type} {r1 r2 r3 : Outcome × LineState W}
    (h : same_launches r1 r2) (g : same_launches r2 r3) : same_launches r1 r3 :=
  ⟨h.1.trans g.1, h.2.1.trans g.2.1, h.2.2.trans g.2.2⟩

/-- The segmentation loop on the text of the pieces `ps` has the effects of handling the
pieces in order, also when there is no piece at all. -/
theorem segment_loop_same {W : Type} (sys : Sys W) (ps : List Str)
    (hfree : ∀ p ∈ ps, '&' ∉ p) (st : LineState W) :
    same_effects (segment_loop sys ((join_amp ps).length + 1) (join_amp ps) st)
      (run_pieces sys ps st) := by
  cases ps with
  | nil =>
    have e : segment_loop sys ((join_amp ([] : List Str)).length + 1) (join_amp []) st =
        run_piece sys st [] := by
      simp only [join_amp, List.length_nil]
      rw [segment_loop, strchr_amp_of_free [] (by simp)]
    rw [e, run_piece_of_empty sys st [] rfl]
    exact ⟨rfl, rfl, rfl, rfl, rfl⟩
  | cons p qs =>
    rw [segment_loop_eq_run_pieces sys (p :: qs) (by simp) hfree _ st (Nat.lt_succ_self _)]
    exact same_effects_refl _

/-- The result of a line and the result of its segmentation loop agree on the outcome, the
Search Path and the process creations: the wait loop changes none of them. -/
theorem process_line_same_launches {W : Type} (sys : Sys W) (paths : List Str) (w : W)
    (line : Str) :
    same_launches (process_line sys paths w line)
      (segment_loop sys ((trim (strip_newline line)).length + 1) (trim (strip_newline line))
        ⟨paths, w, [], false, []⟩) := by
  by_cases hb : trim (strip_newline line) = []
  · rw [process_line_blank sys paths w line hb, hb]
    have e : segment_loop sys (([] : Str).length + 1) [] ⟨paths, w, [], false, []⟩ =
        run_piece sys ⟨paths, w, [], false, []⟩ [] := by
      simp only [List.length_nil]
      rw [segment_loop, strchr_amp_of_free [] (by simp)]
    rw [e, run_piece_of_empty sys _ [] rfl]
    exact ⟨rfl, rfl, rfl⟩
  · have hlen : ¬ ((trim (strip_newline line)).length = 0) :=
      fun e => hb (List.length_eq_zero.mp e)
    unfold process_line
    simp only [if_neg hlen]
    rcases segment_loop sys ((trim (strip_newline line)).length + 1)
      (trim (strip_newline line)) ⟨paths, w, [], false, []⟩ with ⟨o, st⟩
    cases o with
    | running =>
      refine ⟨rfl, rfl, ?_⟩
      simp only [launches_of_append, launches_of_waits, List.append_nil]
    | exited status => exact ⟨rfl, rfl, rfl⟩
    | child => exact ⟨rfl, rfl, rfl⟩

/-- C5: when a segment `s` of a line fails locally (empty or malformed text, built-in
misuse, resolution failure) in the state in which the segmentation loop reaches it:
handling `s` keeps the interpreter running, launches no process and changes neither the
Search Path nor the world nor the handles; the loop of `main` handles the pieces before
`s`, then `s`, then every piece after `s` in order, from the state `s` left; the line has
the outcome, the final Search Path and the process creations of its loop; and the loop and
the line have the same outcome, final Search Path and process creations as for a line made
of the other segments in the same order (the loops also end in the same world). -/
theorem C5_failures_are_local {W : Type} (sys : Sys W) (paths : List Str) (w : W)
    (line1 line2 : Str) (pre post qs : List Str) (s : Str)
    (hfree1 : ∀ p ∈ pre ++ s :: post, '&' ∉ p)
    (hline1 : trim (strip_newline line1) = join_amp (pre ++ s :: post))
    (hfree2 : ∀ p ∈ qs, '&' ∉ p)
    (hline2 : trim (strip_newline line2) = join_amp qs)
    (hqs : qs.map trim = (pre ++ post).map trim)
    (hfail : ∀ st1, run_pieces sys pre ⟨paths, w, [], false, []⟩ = (Outcome.running, st1) →
      fails_locally sys st1.paths st1.world s) :
    (∀ st1, run_pieces sys pre ⟨paths, w, [], false, []⟩ = (Outcome.running, st1) →
      ∃ ev, run_piece sys st1 s =
          (Outcome.running, { st1 with error_in_line := true, trace := st1.trace ++ ev }) ∧
        launches_of ev = []) ∧
    segment_loop sys ((trim (strip_newline line1)).length + 1) (trim (strip_newline line1))
        ⟨paths, w, [], false, []⟩ =
      (match run_pieces sys pre ⟨paths, w, [], false, []⟩ with
       | (Outcome.running, st1) => run_pieces sys post (run_piece sys st1 s).2
       | r => r) ∧
    same_launches (process_line sys paths w line1)
      (segment_loop sys ((trim (strip_newline line1)).length + 1)
        (trim (strip_newline line1)) ⟨paths, w, [], false, []⟩) ∧
    same_launches
      (segment_loop sys ((trim (strip_newline line1)).length + 1)
        (trim (strip_newline line1)) ⟨paths, w, [], false, []⟩)
      (segment_loop sys ((trim (strip_newline line2)).length + 1)
        (trim (strip_newline line2)) ⟨paths, w, [], false, []⟩) ∧
    (segment_loop sys ((trim (strip_newline line1)).length + 1)
        (trim (strip_newline line1)) ⟨paths, w, [], false, []⟩).2.world =
      (segment_loop sys ((trim (strip_newline line2)).length + 1)
        (trim (strip_newline line2)) ⟨paths, w, [], false, []⟩).2.world ∧
    same_launches (process_line sys paths w line1) (process_line sys paths w line2) := by
  have hloc : ∀ st1, run_pieces sys pre ⟨paths, w, [], false, []⟩ = (Outcome.running, st1) →
      ∃ ev, run_piece sys st1 s =
          (Outcome.running, { st1 with error_in_line := true, trace := st1.trace ++ ev }) ∧
        launches_of ev = [] :=
    fun st1 h1 => fails_locally_run_piece sys st1 s (hfail st1 h1)
  have hloop1 : segment_loop sys ((trim (strip_newline line1)).length + 1)
      (trim (strip_newline line1)) ⟨paths, w, [], false, []⟩ =
      run_pieces sys (pre ++ s :: post) ⟨paths, w, [], false, []⟩ := by
    rw [hline1]
    exact segment_loop_eq_run_pieces sys _ (by simp) hfree1 _ _ (Nat.lt_succ_self _)
  have horder : run_pieces sys (pre ++ s :: post) ⟨paths, w, [], false, []⟩ =
      (match run_pieces sys pre ⟨paths, w, [], false, []⟩ with
       | (Outcome.running, st1) => run_pieces sys post (run_piece sys st1 s).2
       | r => r) := by
    rw [run_pieces_append]
    rcases hr : run_pieces sys pre ⟨paths, w, [], false, []⟩ with ⟨o, st1⟩
    cases o with
    | running =>
      obtain ⟨ev, hpiece, _⟩ := hloc st1 hr
      simp only
      rw [run_pieces, hpiece]
    | exited status => rfl
    | child => rfl
  have key : same_effects (run_pieces sys (pre ++ s :: post) ⟨paths, w, [], false, []⟩)
      (run_pieces sys (pre ++ post) ⟨paths, w, [], false, []⟩) := by
    rw [run_pieces_append, run_pieces_append]
    rcases hr : run_pieces sys pre ⟨paths, w, [], false, []⟩ with ⟨o, st1⟩
    cases o with
    | running =>
      obtain ⟨ev, hpiece, hl⟩ := hloc st1 hr
      simp only
      rw [run_pieces, hpiece]
      simp only
      apply run_pieces_same
      refine ⟨rfl, rfl, rfl, ?_⟩
      simp only [launches_of_append, hl, List.append_nil]
    | exited status => exact same_effects_refl _
    | child => exact same_effects_refl _
  have hloop2 := segment_loop_same sys qs hfree2 ⟨paths, w, [], false, []⟩
  rw [← hline2, run_pieces_congr_trim sys qs (pre ++ post) _ hqs] at hloop2
  have hloops : same_effects
      (segment_loop sys ((trim (strip_newline line1)).length + 1)
        (trim (strip_newline line1)) ⟨paths, w, [], false, []⟩)
      (segment_loop sys ((trim (strip_newline line2)).length + 1)
        (trim (strip_newline line2)) ⟨paths, w, [], false, []⟩) := by
    rw [hloop1]
    exact same_effects_trans key (same_effects_symm hloop2)
  have hl1 := process_line_same_launches sys paths w line1
  have hl2 := process_line_same_launches sys paths w line2
  refine ⟨hloc, ?_, hl1, same_launches_of_same_effects hloops, hloops.2.2.1, ?_⟩
  · rw [hloop1, horder]
  · exact same_launches_trans hl1
      (same_launches_trans (same_launches_of_same_effects hloops) (same_launches_symm hl2))

/-- Witness for C5: on `ls & cmd > & ls` the malformed middle segment launches nothing and
the `ls` after it is still launched, as on `ls & ls`. -/
theorem C5_failures_are_local_witness :
    launches_of (process_line (demoSys ["/bin/ls".toList]) init_default_path 0
        "ls & cmd > & ls\n".toList).2.trace =
      [Event.launch 100 "/bin/ls".toList ["ls".toList] none,
       Event.launch 101 "/bin/ls".toList ["ls".toList] none] :=
  ((C5_failures_are_local (demoSys ["/bin/ls".toList]) init_default_path 0
    "ls & cmd > & ls\n".toList "ls & ls\n".toList ["ls ".toList] [" ls".toList]
    ["ls ".toList, " ls".toList] " cmd > ".toList (by decide) (by decide) (by decide)
    (by decide) (by decide) (fun _ _ => Or.inl ⟨true, by decide⟩)).2.2.2.2.2).2.2.trans
    (by decide)

/-! ## C6: the per-line barrier -/

theorem main_loop_trace_starts_with_read {W : Type} (sys : Sys W) (interactive : Bool)
    (rest : List Str) (paths : List Str) (w : W) :
    ∃ nxt, (main_loop sys interactive rest paths w).trace =
      (if interactive then [Event.prompt] else []) ++ [Event.read_line] ++ nxt := by
  cases rest with
  | nil => exact ⟨[], by simp [main_loop]⟩
  | cons l ls =>
    unfold main_loop
    rcases process_line sys paths w l with ⟨o, st2⟩
    cases o
    · exact ⟨_, by simp only [List.append_assoc]; rfl⟩
    · exact ⟨_, rfl⟩
    · exact ⟨_, rfl⟩

/-- The shape of a line that leaves the interpreter running, as the model computes it:
segment events, then one wait per recorded handle. -/
theorem barrier_shape {W : Type} (sys : Sys W) (interactive : Bool) (line : Str)
    (rest : List Str) (paths : List Str) (w : W) (st : LineState W)
    (h : process_line sys paths w line = (Outcome.running, st)) :
    ∃ seg w1 nxt,
      (∀ e ∈ seg, is_segment_event e = true) ∧
      ((trim (strip_newline line) = [] ∧ seg = [] ∧ w1 = w ∧ st.paths = paths) ∨
        (trim (strip_newline line) ≠ [] ∧
          segment_loop sys ((trim (strip_newline line)).length + 1)
              (trim (strip_newline line)) ⟨paths, w, [], false, []⟩ =
            (Outcome.running,
              ⟨st.paths, w1, launched_pids seg, st.error_in_line, seg⟩))) ∧
      st.pids = launched_pids seg ∧
      st.trace = seg ++ (launched_pids seg).map Event.wait ∧
      st.world = (launched_pids seg).foldl sys.waitpid w1 ∧
      main_loop sys interactive (line :: rest) paths w =
        { main_loop sys interactive rest st.paths st.world with
          trace := (if interactive then [Event.prompt] else []) ++ [Event.read_line] ++
            (seg ++ (launched_pids seg).map Event.wait) ++
            (main_loop sys interactive rest st.paths st.world).trace } ∧
      (main_loop sys interactive rest st.paths st.world).trace =
        (if interactive then [Event.prompt] else []) ++ [Event.read_line] ++ nxt := by
  obtain ⟨nxt, hnxt⟩ := main_loop_trace_starts_with_read sys interactive rest st.paths st.world
  have hmain : main_loop sys interactive (line :: rest) paths w =
      { main_loop sys interactive rest st.paths st.world with
        trace := (if interactive then [Event.prompt] else []) ++ [Event.read_line] ++
          st.trace ++ (main_loop sys interactive rest st.paths st.world).trace } := by
    conv_lhs => unfold main_loop
    simp only [h]
  by_cases hb : trim (strip_newline line) = []
  · rw [process_line_blank sys paths w line hb] at h
    injection h with _ h2
    subst h2
    refine ⟨[], w, nxt, by simp, Or.inl ⟨hb, rfl, rfl, rfl⟩, rfl, rfl, rfl, ?_, hnxt⟩
    rw [hmain]
    rfl
  · have hlen : ¬ ((trim (strip_newline line)).length = 0) :=
      fun e => hb (List.length_eq_zero.mp e)
    obtain ⟨ps, hne, hfree, hj⟩ := exists_pieces (trim (strip_newline line))
    have hloop := segment_loop_eq_run_pieces sys ps hne hfree
      ((trim (strip_newline line)).length + 1) ⟨paths, w, [], false, []⟩
      (by rw [hj]; exact Nat.lt_succ_self _)
    rw [hj] at hloop
    obtain ⟨ev, ht, hs, hp⟩ := run_pieces_trace sys ps ⟨paths, w, [], false, []⟩
    rw [← hloop] at ht hp
    unfold process_line at h
    simp only [if_neg hlen] at h
    rcases hr : segment_loop sys ((trim (strip_newline line)).length + 1)
      (trim (strip_newline line)) ⟨paths, w, [], false, []⟩ with ⟨o, st1⟩
    rw [hr] at h ht hp
    cases o with
    | running =>
      simp only at h
      injection h with _ h2
      subst h2
      simp only [List.nil_append] at ht hp
      have hp2 := hp trivial
      rcases st1 with ⟨p1, w1, pids1, f1, tr1⟩
      simp only at ht hp2
      subst ht
      subst hp2
      refine ⟨tr1, w1, nxt, hs, Or.inr ⟨hb, rfl⟩, rfl, rfl, rfl, ?_, hnxt⟩
      rw [hmain]
    | exited status =>
      simp only at h
      injection h with h1 _
      exact Outcome.noConfusion h1
    | child =>
      simp only at h
      injection h with h1 _
      exact Outcome.noConfusion h1

/-- The barrier for a line whose handles fit the array `pids`. -/
theorem barrier_within_capacity {W : Type} (sys : Sys W) (interactive : Bool) (line : Str)
    (rest : List Str) (paths : List Str) (w : W) (st : LineState W)
    (h : process_line sys paths w line = (Outcome.running, st))
    (hcap : st.pids.length ≤ MAX_TOKENS) :
    ∃ seg w1 nxt,
      (∀ e ∈ seg, is_segment_event e = true) ∧
      ((trim (strip_newline line) = [] ∧ seg = [] ∧ w1 = w ∧ st.paths = paths) ∨
        (trim (strip_newline line) ≠ [] ∧
          segment_loop sys ((trim (strip_newline line)).length + 1)
              (trim (strip_newline line)) ⟨paths, w, [], false, []⟩ =
            (Outcome.running,
              ⟨st.paths, w1, launched_pids seg, st.error_in_line, seg⟩))) ∧
      (launched_pids seg).length ≤ MAX_TOKENS ∧
      st.pids = launched_pids seg ∧
      st.trace = seg ++ (launched_pids seg).map Event.wait ∧
      st.world = (launched_pids seg).foldl sys.waitpid w1 ∧
      main_loop sys interactive (line :: rest) paths w =
        { main_loop sys interactive rest st.paths st.world with
          trace := (if interactive then [Event.prompt] else []) ++ [Event.read_line] ++
            (seg ++ (launched_pids seg).map Event.wait) ++
            (main_loop sys interactive rest st.paths st.world).trace } ∧
      (main_loop sys interactive rest st.paths st.world).trace =
        (if interactive then [Event.prompt] else []) ++ [Event.read_line] ++ nxt := by
  obtain ⟨seg, w1, nxt, h1, h2, h3, h4, h5, h6, h7⟩ :=
    barrier_shape sys interactive line rest paths w st h
  exact ⟨seg, w1, nxt, h1, h2, by rw [← h3]; exact hcap, h3, h4, h5, h6, h7⟩

theorem countP_waits_of_segment_events (seg : List Event)
    (h : ∀ e ∈ seg, is_segment_event e = true) :
    seg.countP (fun e => !is_segment_event e) = 0 := by
  rw [List.countP_eq_zero]
  intro e he
  simp [h e he]

theorem countP_waits_of_waits (pids : List Int) :
    (pids.map Event.wait).countP (fun e => !is_segment_event e) = pids.length := by
  induction pids with
  | nil => rfl
  | cons p ps ih =>
    rw [List.map_cons, List.countP_cons_of_pos _ _ (by rfl), ih, List.length_cons]

/-- A line that leaves the interpreter running issues as many waits as it recorded
handles. -/
theorem wait_count_eq_handles {W : Type} (sys : Sys W) (paths : List Str) (w : W)
    (line : Str) (h : (process_line sys paths w line).1 = Outcome.running) :
    (process_line sys paths w line).2.trace.countP (fun e => !is_segment_event e) =
      (process_line sys paths w line).2.pids.length := by
  obtain ⟨seg, _, _, h1, _, h3, h4, _⟩ :=
    barrier_shape sys false line [] paths w (process_line sys paths w line).2
      (Prod.ext h rfl)
  rw [h4, h3, List.countP_append, countP_waits_of_segment_events seg h1,
    countP_waits_of_waits, Nat.zero_add]

/-- C6 (what the code does): for every line that leaves the interpreter running and whose
handles fit the array `pids` (at most `MAX_TOKENS = 512` processes launched on the line),
the segmentation loop ends in a world `w1` after performing the segment events `seg` (no
wait, prompt or read among them); the handles recorded are exactly the pids launched by
`seg`; the line then performs one `waitpid` per recorded handle, in order, so that its
trace is `seg` followed by these waits and its final world is `waitpid` folded over the
handles from `w1`; and the interpreter prompts for and reads the next line only after
these waits, in that final world. On the line of 513 commands `ls`, which leaves the
interpreter running, 513 handles are stored and 513 waits are issued although the array
holds 512. -/
theorem C6_per_line_barrier :
    (∀ (W : Type) (sys : Sys W) (interactive : Bool) (line : Str) (rest : List Str)
      (paths : List Str) (w : W) (st : LineState W),
      process_line sys paths w line = (Outcome.running, st) →
      st.pids.length ≤ MAX_TOKENS →
      ∃ seg w1 nxt,
        (∀ e ∈ seg, is_segment_event e = true) ∧
        ((trim (strip_newline line) = [] ∧ seg = [] ∧ w1 = w ∧ st.paths = paths) ∨
          (trim (strip_newline line) ≠ [] ∧
            segment_loop sys ((trim (strip_newline line)).length + 1)
                (trim (strip_newline line)) ⟨paths, w, [], false, []⟩ =
              (Outcome.running,
                ⟨st.paths, w1, launched_pids seg, st.error_in_line, seg⟩))) ∧
        (launched_pids seg).length ≤ MAX_TOKENS ∧
        st.pids = launched_pids seg ∧
        st.trace = seg ++ (launched_pids seg).map Event.wait ∧
        st.world = (launched_pids seg).foldl sys.waitpid w1 ∧
        main_loop sys interactive (line :: rest) paths w =
          { main_loop sys interactive rest st.paths st.world with
            trace := (if interactive then [Event.prompt] else []) ++ [Event.read_line] ++
              (seg ++ (launched_pids seg).map Event.wait) ++
              (main_loop sys interactive rest st.paths st.world).trace } ∧
        (main_loop sys interactive rest st.paths st.world).trace =
          (if interactive then [Event.prompt] else []) ++ [Event.read_line] ++ nxt) ∧
    ((process_line (demoSys ["/bin/ls".toList]) init_default_path 0 overflow_line).1 =
        Outcome.running ∧
      (process_line (demoSys ["/bin/ls".toList]) init_default_path 0
        overflow_line).2.pids.length = 513 ∧
      ((process_line (demoSys ["/bin/ls".toList]) init_default_path 0
        overflow_line).2.trace.countP (fun e => !is_segment_event e)) = 513 ∧
      MAX_TOKENS = 512) :=
  ⟨fun _ sys interactive line rest paths w st h hcap =>
      barrier_within_capacity sys interactive line rest paths w st h hcap,
    overflow_line_eval.2.2.1, overflow_line_eval.2.2.2,
    (wait_count_eq_handles _ _ _ _ overflow_line_eval.2.2.1).trans overflow_line_eval.2.2.2,
    overflow_line_eval.1⟩

/-- Witness for C6: on `ls & ls`, in a world that logs the reaped pids, both children are
reaped, in launch order, before the next line is read. -/
theorem C6_per_line_barrier_witness :
    (process_line (reapSys ["/bin/ls".toList]) init_default_path (0, [])
      "ls & ls\n".toList).2.world = (2, [100, 101]) ∧
    ∃ seg w1 nxt,
      (∀ e ∈ seg, is_segment_event e = true) ∧
      ((trim (strip_newline "ls & ls\n".toList) = [] ∧ seg = [] ∧ w1 = (0, []) ∧
          (process_line (reapSys ["/bin/ls".toList]) init_default_path (0, [])
            "ls & ls\n".toList).2.paths = init_default_path) ∨
        (trim (strip_newline "ls & ls\n".toList) ≠ [] ∧
          segment_loop (reapSys ["/bin/ls".toList])
              ((trim (strip_newline "ls & ls\n".toList)).length + 1)
              (trim (strip_newline "ls & ls\n".toList))
              ⟨init_default_path, (0, []), [], false, []⟩ =
            (Outcome.running,
              ⟨(process_line (reapSys ["/bin/ls".toList]) init_default_path (0, [])
                  "ls & ls\n".toList).2.paths, w1, launched_pids seg,
                (process_line (reapSys ["/bin/ls".toList]) init_default_path (0, [])
                  "ls & ls\n".toList).2.error_in_line, seg⟩))) ∧
      (launched_pids seg).length ≤ MAX_TOKENS ∧
      (process_line (reapSys ["/bin/ls".toList]) init_default_path (0, [])
        "ls & ls\n".toList).2.pids = launched_pids seg ∧
      (process_line (reapSys ["/bin/ls".toList]) init_default_path (0, [])
        "ls & ls\n".toList).2.trace = seg ++ (launched_pids seg).map Event.wait ∧
      (process_line (reapSys ["/bin/ls".toList]) init_default_path (0, [])
        "ls & ls\n".toList).2.world =
        (launched_pids seg).foldl (reapSys ["/bin/ls".toList]).waitpid w1 ∧
      main_loop (reapSys ["/bin/ls".toList]) true ["ls & ls\n".toList, "ls\n".toList]
          init_default_path (0, []) =
        { main_loop (reapSys ["/bin/ls".toList]) true ["ls\n".toList]
            (process_line (reapSys ["/bin/ls".toList]) init_default_path (0, [])
              "ls & ls\n".toList).2.paths
            (process_line (reapSys ["/bin/ls".toList]) init_default_path (0, [])
              "ls & ls\n".toList).2.world with
          trace := (if true then [Event.prompt] else []) ++ [Event.read_line] ++
            (seg ++ (launched_pids seg).map Event.wait) ++
            (main_loop (reapSys ["/bin/ls".toList]) true ["ls\n".toList]
              (process_line (reapSys ["/bin/ls".toList]) init_default_path (0, [])
                "ls & ls\n".toList).2.paths
              (process_line (reapSys ["/bin/ls".toList]) init_default_path (0, [])
                "ls & ls\n".toList).2.world).trace } ∧
      (main_loop (reapSys ["/bin/ls".toList]) true ["ls\n".toList]
          (process_line (reapSys ["/bin/ls".toList]) init_default_path (0, [])
            "ls & ls\n".toList).2.paths
          (process_line (reapSys ["/bin/ls".toList]) init_default_path (0, [])
            "ls & ls\n".toList).2.world).trace =
        (if true then [Event.prompt] else []) ++ [Event.read_line] ++ nxt :=
  ⟨by decide,
    C6_per_line_barrier.1 (Nat × List Int) (reapSys ["/bin/ls".toList]) true
      "ls & ls\n".toList ["ls\n".toList] init_default_path (0, []) _
      (Prod.ext (by decide) rfl) (by decide)⟩

/-! ## C14: what the segmentation loop visits -/

/-- Erasing the ghost variable gives the loop of `main`, and the ghost variable collects
the pieces of `segment_visits`. -/
theorem segment_loop_ghost_eq {W : Type} (sys : Sys W) (fuel : Nat) (start : Str)
    (st : LineState W) (seen : List Str) :
    segment_loop_ghost sys fuel start st seen =
      (segment_loop sys fuel start st, seen ++ segment_visits sys fuel start st) := by
  induction fuel generalizing start st seen with
  | zero => simp [segment_loop_ghost, segment_loop, segment_visits]
  | succ n ih =>
    rw [segment_loop_ghost, segment_loop, segment_visits]
    cases strchr start '&' with
    | none => rfl
    | some amp =>
      simp only
      rcases run_piece sys st (before_char '&' start) with ⟨o, st2⟩
      cases o with
      | running =>
        simp only
        rw [ih, List.append_assoc, List.singleton_append]
      | exited status => rfl
      | child => rfl

/-- When a piece ends the interpreter, the pieces after it are not handled. -/
theorem run_pieces_stop {W : Type} (sys : Sys W) (pre : List Str) (p : Str)
    (post : List Str) (st st1 : LineState W)
    (hpre : run_pieces sys pre st = (Outcome.running, st1))
    (hstop : (run_piece sys st1 p).1 ≠ Outcome.running) :
    run_pieces sys (pre ++ p :: post) st = run_piece sys st1 p := by
  rw [run_pieces_append, hpre]
  simp only
  rw [run_pieces]
  rcases hr : run_piece sys st1 p with ⟨o, st2⟩
  rw [hr] at hstop
  cases o with
  | running => exact absurd rfl hstop
  | exited status => rfl
  | child => rfl

/-- A run of pieces that does not leave the interpreter running stopped at one of them. -/
theorem run_pieces_not_running {W : Type} (sys : Sys W) (ps : List Str) (st : LineState W)
    (h : (run_pieces sys ps st).1 ≠ Outcome.running) :
    ∃ pre p post st1, ps = pre ++ p :: post ∧
      run_pieces sys pre st = (Outcome.running, st1) ∧
      (run_piece sys st1 p).1 ≠ Outcome.running := by
  induction ps generalizing st with
  | nil => exact absurd rfl h
  | cons a as ih =>
    rw [run_pieces] at h
    rcases hr : run_piece sys st a with ⟨o, st2⟩
    rw [hr] at h
    cases o with
    | running =>
      obtain ⟨pre, p, post, st1, hps, hpre, hstop⟩ := ih st2 h
      refine ⟨a :: pre, p, post, st1, by rw [hps]; rfl, ?_, hstop⟩
      rw [run_pieces, hr]
      exact hpre
    | exited status =>
      exact ⟨[], a, as, st, rfl, rfl, by rw [hr]; exact fun e => Outcome.noConfusion e⟩
    | child =>
      exact ⟨[], a, as, st, rfl, rfl, by rw [hr]; exact fun e => Outcome.noConfusion e⟩

/-- When a piece ends the interpreter, the loop has visited the pieces up to and including
that one, and no other. -/
theorem segment_visits_stop {W : Type} (sys : Sys W) (pre : List Str) (p : Str)
    (post : List Str) (hfree : ∀ x ∈ pre ++ p :: post, '&' ∉ x) (fuel : Nat)
    (st st1 : LineState W) (hfuel : (join_amp (pre ++ p :: post)).length < fuel)
    (hpre : run_pieces sys pre st = (Outcome.running, st1))
    (hstop : (run_piece sys st1 p).1 ≠ Outcome.running) :
    segment_visits sys fuel (join_amp (pre ++ p :: post)) st = pre ++ [p] := by
  induction pre generalizing fuel st with
  | nil =>
    simp only [run_pieces] at hpre
    injection hpre with _ h2
    subst h2
    have hp : '&' ∉ p := hfree p (by simp)
    cases fuel with
    | zero => exact absurd hfuel (Nat.not_lt_zero _)
    | succ n =>
      cases post with
      | nil =>
        rw [segment_visits]
        simp only [List.nil_append, join_amp, strchr_amp_of_free p hp]
      | cons q qs =>
        rw [segment_visits]
        simp only [List.nil_append, join_amp, strchr_amp_append p _ hp,
          before_char_amp_append p _ hp]
        rcases hr : run_piece sys st p with ⟨o, st2⟩
        rw [hr] at hstop
        cases o with
        | running => exact absurd rfl hstop
        | exited status => rfl
        | child => rfl
  | cons a pre2 ih =>
    have ha : '&' ∉ a := hfree a (by simp)
    rw [run_pieces] at hpre
    rcases hr : run_piece sys st a with ⟨o, st2⟩
    rw [hr] at hpre
    cases o with
    | running =>
      simp only at hpre
      cases fuel with
      | zero => exact absurd hfuel (Nat.not_lt_zero _)
      | succ n =>
        cases hrest : pre2 ++ p :: post with
        | nil => simp at hrest
        | cons q qs =>
          have hlen : (join_amp (pre2 ++ p :: post)).length < n := by
            simp only [List.cons_append, hrest, join_amp, List.length_append,
              List.length_cons] at hfuel
            rw [hrest]
            omega
          have ih2 := ih (fun x hx => hfree x (by
            rw [List.cons_append]
            exact List.mem_cons_of_mem _ hx)) n st2 hlen hpre
          rw [segment_visits]
          simp only [List.cons_append, hrest, join_amp, strchr_amp_append a _ ha,
            before_char_amp_append a _ ha, List.tail_cons, hr]
          rw [← hrest, ih2]
    | exited status =>
      injection hpre with h1 _
      exact Outcome.noConfusion h1
    | child =>
      injection hpre with h1 _
      exact Outcome.noConfusion h1

/-- C14 (amended): for every line text with `k` occurrences of `&`, the pieces delimited
by the `&` characters are `k + 1` in number, none contains `&`, and joined with `&` they
give the text again. The loop of `main` hands these pieces to its body in left-to-right
order, empty pieces included: its result is that of handling them one after the other,
and the pieces it visits (the ghost variable of `segment_loop_ghost`, whose erasure is
the loop itself) are all `k + 1` of them when the interpreter is still running at the end
of the loop, and otherwise exactly the pieces up to and including the one that ends the
interpreter, the later ones being neither visited nor handled. -/
theorem C14_segmentation_keeps_pieces_in_order {W : Type} (sys : Sys W) (tline : Str)
    (st : LineState W) :
    (tline.splitOn '&').length = tline.count '&' + 1 ∧
    (∀ p ∈ tline.splitOn '&', '&' ∉ p) ∧
    ['&'].intercalate (tline.splitOn '&') = tline ∧
    segment_loop_ghost sys (tline.length + 1) tline st [] =
      (segment_loop sys (tline.length + 1) tline st,
        segment_visits sys (tline.length + 1) tline st) ∧
    segment_loop sys (tline.length + 1) tline st = run_pieces sys (tline.splitOn '&') st ∧
    ((segment_loop sys (tline.length + 1) tline st).1 = Outcome.running →
      segment_visits sys (tline.length + 1) tline st = tline.splitOn '&') ∧
    (∀ pre p post st1, tline.splitOn '&' = pre ++ p :: post →
      run_pieces sys pre st = (Outcome.running, st1) →
      (run_piece sys st1 p).1 ≠ Outcome.running →
        segment_loop sys (tline.length + 1) tline st = run_piece sys st1 p ∧
        segment_visits sys (tline.length + 1) tline st = pre ++ [p]) ∧
    ((segment_loop sys (tline.length + 1) tline st).1 ≠ Outcome.running →
      ∃ pre p post st1, tline.splitOn '&' = pre ++ p :: post ∧
        run_pieces sys pre st = (Outcome.running, st1) ∧
        (run_piece sys st1 p).1 ≠ Outcome.running ∧
        segment_loop sys (tline.length + 1) tline st = run_piece sys st1 p ∧
        segment_visits sys (tline.length + 1) tline st = pre ++ [p]) := by
  obtain ⟨ps, hne, hfree, hj⟩ := exists_pieces tline
  have hsplit : tline.splitOn '&' = ps := by
    rw [← hj]
    exact splitOn_join_amp ps hne hfree
  have hfuel : (join_amp ps).length < tline.length + 1 := by
    rw [hj]
    exact Nat.lt_succ_self _
  have hv := segment_visits_pieces sys ps hne hfree (tline.length + 1) st hfuel
  have hloop := segment_loop_eq_run_pieces sys ps hne hfree (tline.length + 1) st hfuel
  rw [hj] at hv hloop
  have hstop : ∀ pre p post st1, ps = pre ++ p :: post →
      run_pieces sys pre st = (Outcome.running, st1) →
      (run_piece sys st1 p).1 ≠ Outcome.running →
        segment_loop sys (tline.length + 1) tline st = run_piece sys st1 p ∧
        segment_visits sys (tline.length + 1) tline st = pre ++ [p] := by
    intro pre p post st1 hps hpre hst
    subst hps
    refine ⟨?_, ?_⟩
    · rw [hloop]
      exact run_pieces_stop sys pre p post st st1 hpre hst
    · have := segment_visits_stop sys pre p post hfree (tline.length + 1) st st1 hfuel hpre hst
      rwa [hj] at this
  rw [hsplit]
  refine ⟨?_, hfree, ?_, ?_, hloop, ?_, hstop, ?_⟩
  · rw [← hj]
    exact (count_amp_join_amp ps hne hfree).symm
  · rw [← join_amp_eq_intercalate, hj]
  · rw [segment_loop_ghost_eq, List.nil_append]
  · intro hrun
    rw [hloop] at hrun
    exact hv.2 hrun
  · intro hnot
    rw [hloop] at hnot
    obtain ⟨pre, p, post, st1, hps, hpre, hst⟩ := run_pieces_not_running sys ps st hnot
    obtain ⟨h1, h2⟩ := hstop pre p post st1 hps hpre hst
    exact ⟨pre, p, post, st1, hps, hpre, hst, h1, h2⟩

/-- Witness for C14: on `ls & & ls` the loop visits three pieces, the empty one included. -/
theorem C14_segmentation_keeps_pieces_in_order_witness :
    segment_visits (demoSys ["/bin/ls".toList]) ("ls & & ls".toList.length + 1)
      "ls & & ls".toList ⟨init_default_path, 0, [], false, []⟩ =
      "ls & & ls".toList.splitOn '&' :=
  (C14_segmentation_keeps_pieces_in_order (demoSys ["/bin/ls".toList]) "ls & & ls".toList
    ⟨init_default_path, 0, [], false, []⟩).2.2.2.2.2.1 (by decide)

/-- C14 as written fails: the text `exit & ls` is trimmed, not empty and has one `&`, so
two pieces, `exit ` and ` ls`; the loop of `main` visits only the first one, after which
the interpreter has exited with status 0: its trace is empty, whereas handling the piece
` ls` would have launched `/bin/ls`. -/
theorem C14_counterexample :
    trim "exit & ls".toList = "exit & ls".toList ∧
    "exit & ls".toList.count '&' = 1 ∧
    "exit & ls".toList.splitOn '&' = ["exit ".toList, " ls".toList] ∧
    segment_loop_ghost (demoSys ["/bin/ls".toList]) ("exit & ls".toList.length + 1)
      "exit & ls".toList ⟨init_default_path, 0, [], false, []⟩ [] =
      ((Outcome.exited 0, ⟨init_default_path, 0, [], false, []⟩), ["exit ".toList]) ∧
    segment_visits (demoSys ["/bin/ls".toList]) ("exit & ls".toList.length + 1)
      "exit & ls".toList ⟨init_default_path, 0, [], false, []⟩ = ["exit ".toList] ∧
    (segment_loop (demoSys ["/bin/ls".toList]) ("exit & ls".toList.length + 1)
      "exit & ls".toList ⟨init_default_path, 0, [], false, []⟩).1 = Outcome.exited 0 ∧
    (segment_loop (demoSys ["/bin/ls".toList]) ("exit & ls".toList.length + 1)
      "exit & ls".toList ⟨init_default_path, 0, [], false, []⟩).2.trace = [] ∧
    (run_piece (demoSys ["/bin/ls".toList]) ⟨init_default_path, 0, [], false, []⟩
      " ls".toList).2.trace = [Event.launch 100 "/bin/ls".toList ["ls".toList] none] := by
  refine ⟨by decide, by decide, by decide, rfl, by decide, by decide, by decide, by decide⟩

end Wish
